import Mathlib

/-!
Verification development for the tools-build repository, a Go build-automation
helper library.  The Go sources are shallowly embedded: Go strings become
lists of characters, the process environment becomes a function from names to
optional values, and the afero file system becomes a finite tree.
Go's `filepath.Split` is modelled with the Windows semantics of Go 1.22: both
`/` and `\` act as path separators, and a leading two-character volume whose
second character is `:` is treated as a drive prefix.  The repository's own
unit tests (for example `IsMalformedFileName("..\\") = true` and
`IsMalformedFileName("c:/foo/bar/txt") = true`) pass only under these
semantics.  The UNC and device volume branches of Go 1.22's `volumeNameLen`
are not modelled; they are reached only by strings whose first two characters
are both separators (every other branch of the real switch demands two
leading slashes, and a second character `:` takes the drive case first), and
on such strings the real `containsBackDir` treats the whole string as a
volume and recurses without progress.  Accordingly `IsMalformedFileName`,
which returns before splitting whenever the path starts with a separator,
is modelled on its full domain, while the `containsBackDir` theorem carries
the explicit hypothesis `leadingDoubleSep f = false`; that hypothesis is
preserved by the code's recursion, because the directory part is a prefix of
the input, `ReplaceAll` maps separators to separators, and the suffix trim
only shortens the tail.
-/

/-- Go strings are modelled as lists of characters. -/
abbrev GoString := List Char

/-- Go `strings.HasPrefix`; the repository wraps it as `startsWith`. -/
def startsWith : GoString → GoString → Bool
  | _, [] => true
  | [], _ :: _ => false
  | c :: cs, p :: ps => c == p && startsWith cs ps

/-- Go `strings.HasSuffix`; the repository wraps it as `endsIn`. -/
def endsIn (s suf : GoString) : Bool := startsWith s.reverse suf.reverse

/-- Go `strings.TrimPrefix`. -/
def trimLeading (s pre : GoString) : GoString :=
  if startsWith s pre then s.drop pre.length else s

/-- Go `strings.TrimSuffix`. -/
def trimTrailing (s suf : GoString) : GoString :=
  if endsIn s suf then s.take (s.length - suf.length) else s

/-- Character-level model of Go `strings.ReplaceAll(s, "\\", "/")`. -/
def replaceBS (s : GoString) : GoString :=
  s.map (fun c => if c == '\\' then '/' else c)

/-- The repository's `canonicalPath`: backslashes are replaced by forward
slashes, the replacement guarded by a containment test exactly as in the
source. -/
def canonicalPath (path : GoString) : GoString :=
  if path.contains '\\' then replaceBS path else path

/-- Go `os.IsPathSeparator` on Windows: both slash characters separate paths. -/
def isPathSeparator (c : Char) : Bool := c == '/' || c == '\\'

/-- Drive-prefix test: Go 1.22's `volumeNameLen` on Windows treats any string
whose second character is a colon as starting with a length-two drive prefix. -/
def driveLetter : GoString → Bool
  | _ :: b :: _ => b == ':'
  | _ => false

/-- Length of the leading volume name: the drive-letter case of Go 1.22's
`volumeNameLen` on Windows.  The UNC and device branches are not modelled;
this agrees with the real function exactly on every string whose first two
characters are not both separators. -/
def volumeNameLen (p : GoString) : Nat := if driveLetter p then 2 else 0

/-- Go `filepath.Split` on Windows: the file part is the longest suffix after
the volume containing no path separator, the directory part is everything
before it.  Exact wherever `volumeNameLen` is, that is, away from
double-separator-leading (UNC or device style) strings. -/
def filepathSplit (p : GoString) : GoString × GoString :=
  (p.take (p.length -
      ((p.drop (volumeNameLen p)).reverse.takeWhile (fun c => !isPathSeparator c)).length),
   ((p.drop (volumeNameLen p)).reverse.takeWhile (fun c => !isPathSeparator c)).reverse)

/-- Fueled version of the repository's recursive `IsMalformedFileName`; fuel
only serves termination, and `IsMalformedFileName` always supplies enough
because every recursive call strictly shrinks the string. -/
def malformedFuel : Nat → GoString → Bool
  | 0, _ => false
  | fuel + 1, path =>
    if path.isEmpty then false
    else if startsWith path ['/'] || startsWith path ['\\'] then true
    else if (filepathSplit (canonicalPath path)).2 = ['.', '.'] then true
    else if (filepathSplit (canonicalPath path)).1 = path ∧
        (filepathSplit (canonicalPath path)).2 = [] then true
    else malformedFuel fuel (trimTrailing (filepathSplit (canonicalPath path)).1 ['/'])

/-- The repository's `IsMalformedFileName`. -/
def IsMalformedFileName (path : GoString) : Bool :=
  malformedFuel (path.length + 1) path

/-- The repository's `isIllegalFileName`. -/
def isIllegalFileName (path : GoString) : Bool :=
  path.isEmpty || IsMalformedFileName path

/-- Specialised model of Go `strings.Contains(f, "..")`. -/
def containsDotDot : GoString → Bool
  | [] => false
  | c :: cs => startsWith (c :: cs) ['.', '.'] || containsDotDot cs

/-- Fueled version of `containsBackDir` from build.go; as with
`malformedFuel`, the fuel never runs out when seeded with the string length. -/
def backDirFuel : Nat → GoString → Bool
  | 0, _ => false
  | fuel + 1, f =>
    if !containsDotDot f then false
    else if f = ['.', '.'] then true
    else if (filepathSplit f).2 = ['.', '.'] then true
    else backDirFuel fuel (trimTrailing (replaceBS (filepathSplit f).1) ['/'])

/-- The `containsBackDir` predicate of build.go. -/
def containsBackDir (f : GoString) : Bool :=
  backDirFuel (f.length + 1) f

/-- Split a string into the components delimited by characters satisfying
the predicate. -/
def compsBy (P : Char → Bool) : GoString → List GoString
  | [] => [[]]
  | c :: cs =>
    if P c then [] :: compsBy P cs
    else
      match compsBy P cs with
      | [] => [[c]]
      | h :: t => (c :: h) :: t

/-- The forward-slash-delimited components of a string. -/
def comps (s : GoString) : List GoString := compsBy (fun c => c == '/') s

/-- The components of a string delimited by either path separator. -/
def compsW (s : GoString) : List GoString := compsBy isPathSeparator s

/-- Some slash-delimited component is exactly the back-directory token. -/
def hasDotDotComponent (s : GoString) : Bool := (comps s).contains ['.', '.']

/-- Some slash-delimited component after the first is empty: the string
contains two adjacent slashes or ends with a slash. -/
def hasEmptyTailComponent (s : GoString) : Bool :=
  ((comps s).tail).contains ([] : GoString)

/-- The canonicalized path with one trailing slash dropped when the original
contained a backslash; this is the string whose components the recursion of
`IsMalformedFileName` actually examines. -/
def effectiveCanonical (p : GoString) : GoString :=
  if p.contains '\\' then trimTrailing (canonicalPath p) ['/'] else p

/-- A drive-style prefix immediately followed by a complete back-directory
component, such as in a drive-relative path like c:.. or c:../x. -/
def driveRelDotDot : GoString → Bool
  | _ :: b :: c :: d :: [] => b == ':' && c == '.' && d == '.'
  | _ :: b :: c :: d :: e :: _ => b == ':' && c == '.' && d == '.' && isPathSeparator e
  | _ => false

/-- Some component delimited by either separator is exactly the
back-directory token. -/
def hasDotDotComponentW (s : GoString) : Bool := (compsW s).contains ['.', '.']

/-- The specification-side characterization of `IsMalformedFileName` (amended
claim C1): nonempty, and either starting with a separator, carrying a drive
prefix, containing a back-directory component, or containing an empty
component after the first of the effective canonical path. -/
def malformedSpec (p : GoString) : Bool :=
  !p.isEmpty &&
    (startsWith p ['/'] || startsWith p ['\\'] || driveLetter (canonicalPath p) ||
      hasDotDotComponent (effectiveCanonical p) ||
      hasEmptyTailComponent (effectiveCanonical p))

/-- The specification-side characterization of the original claim C1: some
slash component of the canonical path is the back-directory token, the path
starts with a separator, or it carries a drive prefix. -/
def malformedSpecOriginal (p : GoString) : Bool :=
  startsWith p ['/'] || startsWith p ['\\'] || driveLetter (canonicalPath p) ||
    hasDotDotComponent (canonicalPath p)

/-- The specification-side characterization of `containsBackDir` (amended
claim C6): some component delimited by either separator is exactly the
back-directory token, or a drive-style prefix is immediately followed by
one. -/
def backDirSpec (f : GoString) : Bool :=
  hasDotDotComponentW f || driveRelDotDot f

/-- A string beginning with two path separators: a UNC or device style path.
On these the real Go 1.22 volume parser consumes the whole string, so
`containsBackDir` splits them into themselves and an empty file part and
recurses without progress; on every other string the drive-letter-only
volume model used here coincides with Go 1.22. -/
def leadingDoubleSep : GoString → Bool
  | a :: b :: _ => isPathSeparator a && isPathSeparator b
  | _ => false

/-- The process environment: a variable name maps to its value when defined. -/
def Env : Type := GoString → Option GoString

/-- Model of Go os.Setenv. -/
def setenvFn (env : Env) (name value : GoString) : Env :=
  fun n => if n = name then some value else env n

/-- Model of Go os.Unsetenv. -/
def unsetenvFn (env : Env) (name : GoString) : Env :=
  fun n => if n = name then none else env n

/-- The repository's `EnvVarMemento`. -/
structure EnvVarMemento where
  Name : GoString
  Value : GoString
  Unset : Bool
deriving DecidableEq, Repr

/-- Loop body of the repository's `checkEnvVars`; the map of already-seen
names is modelled by a list. -/
def checkEnvVarsLoop : List EnvVarMemento → List GoString → Bool
  | [], _ => true
  | v :: rest, seen =>
    if seen.contains v.Name then false else checkEnvVarsLoop rest (v.Name :: seen)

/-- The repository's `checkEnvVars`. -/
def checkEnvVars (input : List EnvVarMemento) : Bool :=
  if input.isEmpty then true else checkEnvVarsLoop input []

/-- Loop body of `SetupEnvVars`: applies each directive in order, recording
the prior state of the variable immediately before mutating it. -/
def applyEnvVarDirectives : List EnvVarMemento → Env → List EnvVarMemento × Env
  | [], env => ([], env)
  | v :: rest, env =>
    let old := env v.Name
    let saved : EnvVarMemento := ⟨v.Name, old.getD [], old.isNone⟩
    let env1 := if v.Unset then unsetenvFn env v.Name else setenvFn env v.Name v.Value
    let r := applyEnvVarDirectives rest env1
    (saved :: r.1, r.2)

/-- The repository's `SetupEnvVars`: the snapshot batch (`none` models Go's
nil on failure), the success flag, and the resulting environment. -/
def SetupEnvVars (input : List EnvVarMemento) (env : Env) :
    Option (List EnvVarMemento) × Bool × Env :=
  if checkEnvVars input then
    (some (applyEnvVarDirectives input env).1, true, (applyEnvVarDirectives input env).2)
  else (none, false, env)

/-- The repository's `RestoreEnvVars`, applying each memento in order. -/
def RestoreEnvVars : List EnvVarMemento → Env → Env
  | [], env => env
  | v :: rest, env =>
    RestoreEnvVars rest
      (if v.Unset then unsetenvFn env v.Name else setenvFn env v.Name v.Value)

/-- The repository's `directedCommand`. -/
structure directedCommand where
  command : GoString
  dir : GoString
  envVars : List EnvVarMemento

/-- Model of the external executor `ExecFn`: given the command line, the
working directory and the ambient environment, reports success. -/
def Executor : Type := GoString → GoString → Env → Bool

/-- The repository's `directedCommand.execute`: the success flag, the final
environment, and the number of executor invocations. -/
def directedCommand.execute (dC : directedCommand) (execFn : Executor) (env : Env) :
    Bool × Env × Nat :=
  match SetupEnvVars dC.envVars env with
  | (saved, envVarsOK, env1) =>
    if envVarsOK then
      (execFn dC.command dC.dir env1, RestoreEnvVars (saved.getD []) env1, 1)
    else (false, env1, 0)

/-- The repository's `RunCommand`: a directed command without environment
directives, in the working directory. -/
def RunCommand (execFn : Executor) (wd : GoString) (env : Env) (command : GoString) :
    Bool × Env × Nat :=
  (directedCommand.mk command wd []).execute execFn env

/-- The repository's `GenerateCoverageReport`, tracking the environment and
the total number of executor invocations. -/
def GenerateCoverageReport (execFn : Executor) (wd : GoString) (env : Env)
    (coverageDataFile : GoString) : Bool × Env × Nat :=
  if isIllegalFileName coverageDataFile then (false, env, 0)
  else
    let r1 := RunCommand execFn wd env
      ("go test -coverprofile=".toList ++ coverageDataFile ++ " ./...".toList)
    if r1.1 then
      let r2 := RunCommand execFn wd r1.2.1
        ("go tool cover -html=".toList ++ coverageDataFile)
      (r2.1, r2.2.1, r1.2.2 + r2.2.2)
    else (false, r1.2.1, r1.2.2)

/-- A node of the modelled afero file system: a regular file, or a directory
with named children. -/
inductive FSNode where
  | file : FSNode
  | dir : List (GoString × FSNode) → FSNode

/-- Lexicographic comparison of names, used to model afero's sorted
directory listings. -/
def lexLe : GoString → GoString → Bool
  | [], _ => true
  | _ :: _, [] => false
  | a :: as, b :: bs => if a = b then lexLe as bs else decide (a < b)

/-- Insertion into a name-sorted list of directory entries. -/
def insertByName (x : GoString × FSNode) :
    List (GoString × FSNode) → List (GoString × FSNode)
  | [] => [x]
  | y :: ys => if lexLe x.1 y.1 then x :: y :: ys else y :: insertByName x ys

/-- afero's `ReadDir` returns entries sorted by name. -/
def sortByName (l : List (GoString × FSNode)) : List (GoString × FSNode) :=
  l.foldr insertByName []

/-- Look a name up among directory entries. -/
def childLookup (name : GoString) : List (GoString × FSNode) → Option FSNode
  | [] => none
  | c :: cs => if c.1 = name then some c.2 else childLookup name cs

/-- Resolve a list of path components against the tree. -/
def resolvePath : FSNode → List GoString → Option FSNode
  | node, [] => some node
  | FSNode.file, _ :: _ => none
  | FSNode.dir cs, n :: rest =>
    match childLookup n cs with
    | none => none
    | some child => resolvePath child rest

/-- Resolve a path string against the tree. -/
def resolve (fs : FSNode) (path : GoString) : Option FSNode :=
  resolvePath fs (comps path)

/-- Whether an optional resolved node is a directory. -/
def isDirNode : Option FSNode → Bool
  | some (FSNode.dir _) => true
  | _ => false

/-- Go `filepath.Join` of a directory and a child name; Join additionally
cleans its result, which coincides with plain concatenation on the
separator-free names used here. -/
def goJoin (dir name : GoString) : GoString := dir ++ '/' :: name

mutual

/-- Size of a file-system node, used to seed the recursion fuel of
`AllDirs`. -/
def FSNode.size : FSNode → Nat
  | .file => 1
  | .dir cs => 1 + sizeChildren cs

/-- Combined size of a list of directory entries. -/
def sizeChildren : List (GoString × FSNode) → Nat
  | [] => 0
  | c :: cs => FSNode.size c.2 + sizeChildren cs

end

/-- The recursion of the repository's `AllDirs` below a directory already
known to exist: the directory itself first, then, for each child directory
in name order, its subtree.  Fuel bounds the recursion depth; `AllDirs`
seeds it with the size of the subtree, which always suffices. -/
def allDirsFuel : Nat → GoString → List (GoString × FSNode) → List GoString
  | 0, _, _ => []
  | fuel + 1, path, children =>
    path :: ((sortByName children).map (fun c =>
      match c.2 with
      | FSNode.file => []
      | FSNode.dir cs => allDirsFuel fuel (canonicalPath (goJoin path c.1)) cs)).flatten

/-- The repository's `AllDirs`: an error when the top path does not resolve
to a directory (afero's `IsDir` errors or reports false), otherwise the
pre-order listing of all directories below it, the top included. -/
def AllDirs (fs : FSNode) (top : GoString) : Except GoString (List GoString) :=
  match resolve fs top with
  | none => Except.error ("stat error: ".toList ++ top)
  | some FSNode.file => Except.error (top ++ " is not a directory".toList)
  | some (FSNode.dir cs) =>
    Except.ok (allDirsFuel (sizeChildren cs + 1) (canonicalPath top) cs)

/-- The repository's `IsRelevantFile`: a directory entry that is a regular
file whose name the matcher accepts. -/
def IsRelevantFile (entry : GoString × FSNode) (fileMatcher : GoString → Bool) : Bool :=
  match entry.2 with
  | FSNode.file => fileMatcher entry.1
  | FSNode.dir _ => false

/-- The repository's `IncludesRelevantFiles`: scans one directory's entries;
a directory that cannot be read yields false. -/
def IncludesRelevantFiles (fs : FSNode) (dir : GoString)
    (fileMatcher : GoString → Bool) : Bool :=
  match resolve fs dir with
  | some (FSNode.dir cs) => (sortByName cs).any (fun e => IsRelevantFile e fileMatcher)
  | _ => false

/-- The repository's `RelevantDirs`, with the working directory passed
explicitly. -/
def RelevantDirs (fs : FSNode) (topDir : GoString)
    (fileMatcher : GoString → Bool) : Except GoString (List GoString) :=
  match AllDirs fs topDir with
  | Except.error e => Except.error e
  | Except.ok dirs =>
    Except.ok ((dirs.filter (fun dir => IncludesRelevantFiles fs dir fileMatcher)).map
      (fun dir => trimLeading (trimLeading dir topDir) ['/']))

/-- The repository's `MatchGoSource`. -/
def MatchGoSource (name : GoString) : Bool :=
  endsIn name ".go".toList && !endsIn name "_test.go".toList &&
    !startsWith name "testing".toList

/-- The file tree of claim C7: directories a, a/b, a/b/c, a/b/c/d and a
regular file a/b/c/f. -/
def fsC7 : FSNode :=
  FSNode.dir [("a".toList, FSNode.dir [("b".toList, FSNode.dir
    [("c".toList, FSNode.dir
      [("d".toList, FSNode.dir []), ("f".toList, FSNode.file)])])])]

/-- The file tree of claims C8 and C9: files a/foo_test.go and a/b/foo.go. -/
def fsC8 : FSNode :=
  FSNode.dir [("a".toList, FSNode.dir
    [("foo_test.go".toList, FSNode.file),
     ("b".toList, FSNode.dir [("foo.go".toList, FSNode.file)])])]

/-- A tree whose root directory a directly contains a relevant Go source
file; used to witness the amended claim C9. -/
def fsC9w : FSNode :=
  FSNode.dir [("a".toList, FSNode.dir [("foo.go".toList, FSNode.file)])]

/-! Helper lemmas about lists, strings, and the split primitives. -/

theorem contains_iff_mem {α : Type} [BEq α] [LawfulBEq α] (l : List α) (a : α) :
    l.contains a = true ↔ a ∈ l := by
  simp [List.contains, List.elem_iff]

theorem contains_append {α : Type} [BEq α] [LawfulBEq α] (l₁ l₂ : List α) (a : α) :
    (l₁ ++ l₂).contains a = (l₁.contains a || l₂.contains a) := by
  cases h1 : l₁.contains a <;> cases h2 : l₂.contains a <;>
    simp_all [contains_iff_mem, List.mem_append]

theorem contains_eq_false_iff {α : Type} [BEq α] [LawfulBEq α] (l : List α) (a : α) :
    l.contains a = false ↔ a ∉ l := by
  rw [← Bool.not_eq_true, not_iff_not]
  exact contains_iff_mem l a

theorem startsWith_nil_right (s : GoString) : startsWith s [] = true := by
  cases s <;> rfl

theorem startsWith_cons_single (c : Char) (cs : GoString) (x : Char) :
    startsWith (c :: cs) [x] = (c == x) := by
  simp [startsWith, startsWith_nil_right]

theorem startsWith_single_eq_true (s : GoString) (x : Char)
    (h : startsWith s [x] = true) : ∃ t, s = x :: t := by
  cases s with
  | nil => simp [startsWith] at h
  | cons c cs =>
    rw [startsWith_cons_single] at h
    exact ⟨cs, by simp_all⟩

theorem startsWith_single_of_head (x : Char) (t : GoString) :
    startsWith (x :: t) [x] = true := by
  simp [startsWith_cons_single]

theorem startsWith_refl (s : GoString) : startsWith s s = true := by
  induction s with
  | nil => rfl
  | cons c cs ih => simp [startsWith, ih]

theorem endsIn_append_single (a : GoString) (x : Char) :
    endsIn (a ++ [x]) [x] = true := by
  simp [endsIn, startsWith_cons_single]

theorem trimTrailing_append_single (a : GoString) (x : Char) :
    trimTrailing (a ++ [x]) [x] = a := by
  simp only [trimTrailing, endsIn_append_single, if_true]
  have h : (a ++ [x]).length - [x].length = a.length := by simp
  rw [h, List.take_left]

theorem trimTrailing_nil (x : Char) : trimTrailing ([] : GoString) [x] = [] := by
  simp [trimTrailing, endsIn, startsWith]

theorem trimTrailing_of_last_ne (a : GoString) (y x : Char) (h : (y == x) = false) :
    trimTrailing (a ++ [y]) [x] = a ++ [y] := by
  simp [trimTrailing, endsIn, startsWith_cons_single, h]

theorem trimTrailing_length_le (s suf : GoString) :
    (trimTrailing s suf).length ≤ s.length := by
  unfold trimTrailing
  split
  · simp
  · exact Nat.le_refl _

theorem replaceBS_nil : replaceBS [] = [] := rfl

theorem replaceBS_cons (c : Char) (cs : GoString) :
    replaceBS (c :: cs) = (if c == '\\' then '/' else c) :: replaceBS cs := rfl

theorem replaceBS_append (a b : GoString) :
    replaceBS (a ++ b) = replaceBS a ++ replaceBS b := by
  simp [replaceBS]

theorem length_replaceBS (s : GoString) : (replaceBS s).length = s.length := by
  simp [replaceBS]

theorem not_bs_mem_replaceBS (s : GoString) : '\\' ∉ replaceBS s := by
  intro h
  obtain ⟨b, _, hb⟩ := List.mem_map.mp h
  by_cases hb' : (b == '\\') = true <;> simp_all

theorem replaceBS_eq_self (s : GoString) (h : '\\' ∉ s) : replaceBS s = s := by
  induction s with
  | nil => rfl
  | cons c cs ih =>
    rw [replaceBS_cons]
    have hc : (c == '\\') = false := by
      simp only [beq_eq_false_iff_ne, ne_eq]
      intro hcc
      exact h (hcc ▸ List.mem_cons_self c cs)
    rw [hc]
    simp only [if_false, Bool.false_eq_true]
    rw [ih fun hm => h (List.mem_cons_of_mem c hm)]

theorem replaceBS_ne_self (s : GoString) (h : '\\' ∈ s) : replaceBS s ≠ s := by
  intro heq
  apply not_bs_mem_replaceBS s
  rw [heq]
  exact h

theorem canonicalPath_eq_replaceBS (p : GoString) : canonicalPath p = replaceBS p := by
  unfold canonicalPath
  split
  · rfl
  · next h =>
    rw [Bool.not_eq_true] at h
    rw [replaceBS_eq_self p ((contains_eq_false_iff p '\\').mp h)]

theorem canonicalPath_eq_self (p : GoString) (h : '\\' ∉ p) : canonicalPath p = p := by
  rw [canonicalPath_eq_replaceBS, replaceBS_eq_self p h]

theorem length_canonicalPath (p : GoString) : (canonicalPath p).length = p.length := by
  rw [canonicalPath_eq_replaceBS, length_replaceBS]

theorem not_bs_mem_canonicalPath (p : GoString) : '\\' ∉ canonicalPath p := by
  rw [canonicalPath_eq_replaceBS]
  exact not_bs_mem_replaceBS p

theorem canonicalPath_ne_self_of_contains (p : GoString)
    (h : p.contains '\\' = true) : canonicalPath p ≠ p := by
  rw [canonicalPath_eq_replaceBS]
  exact replaceBS_ne_self p ((contains_iff_mem p '\\').mp h)

theorem sep_eq_slash_of_not_bs (c : Char) (hsep : isPathSeparator c = true)
    (hc : c ≠ '\\') : c = '/' := by
  simp only [isPathSeparator, Bool.or_eq_true, beq_iff_eq] at hsep
  tauto

theorem volumeNameLen_le_length (p : GoString) : volumeNameLen p ≤ p.length := by
  unfold volumeNameLen
  split
  · next h =>
    cases p with
    | nil => simp [driveLetter] at h
    | cons a q =>
      cases q with
      | nil => simp [driveLetter] at h
      | cons b r => simp
  · exact Nat.zero_le _

theorem takeWhile_all_stop {α : Type} (P : α → Bool) (l1 : List α) (x : α) (l2 : List α)
    (h1 : ∀ c ∈ l1, P c = true) (hx : P x = false) :
    (l1 ++ x :: l2).takeWhile P = l1 := by
  induction l1 with
  | nil => simp [List.takeWhile_cons, hx]
  | cons c cs ih =>
    have hc : P c = true := h1 c (List.mem_cons_self c cs)
    simp only [List.cons_append, List.takeWhile_cons, hc, if_true]
    rw [ih fun d hd => h1 d (List.mem_cons_of_mem c hd)]

theorem takeWhile_all {α : Type} (P : α → Bool) (l : List α)
    (h : ∀ c ∈ l, P c = true) : l.takeWhile P = l := by
  induction l with
  | nil => rfl
  | cons c cs ih =>
    simp only [List.takeWhile_cons, h c (List.mem_cons_self c cs), if_true]
    rw [ih fun d hd => h d (List.mem_cons_of_mem c hd)]

theorem filepathSplit_sep_free (p : GoString)
    (h : ∀ c ∈ p.drop (volumeNameLen p), isPathSeparator c = false) :
    filepathSplit p = (p.take (volumeNameLen p), p.drop (volumeNameLen p)) := by
  unfold filepathSplit
  have h1 : (p.drop (volumeNameLen p)).reverse.takeWhile (fun c => !isPathSeparator c)
      = (p.drop (volumeNameLen p)).reverse := by
    apply takeWhile_all
    intro c hc
    simp [h c (List.mem_reverse.mp hc)]
  rw [h1]
  have hv : volumeNameLen p ≤ p.length := volumeNameLen_le_length p
  have h2 : p.length - (p.drop (volumeNameLen p)).reverse.length = volumeNameLen p := by
    simp
    omega
  rw [h2, List.reverse_reverse]

theorem filepathSplit_last_sep (u b : GoString) (s : Char) (p : GoString)
    (hp : p = u ++ s :: b)
    (hv : volumeNameLen p ≤ u.length)
    (hs : isPathSeparator s = true)
    (hb : ∀ c ∈ b, isPathSeparator c = false) :
    filepathSplit p = (u ++ [s], b) := by
  subst hp
  unfold filepathSplit
  have hdrop : (u ++ s :: b).drop (volumeNameLen (u ++ s :: b)) =
      u.drop (volumeNameLen (u ++ s :: b)) ++ s :: b :=
    List.drop_append_of_le_length hv
  rw [hdrop]
  have htw : (u.drop (volumeNameLen (u ++ s :: b)) ++ s :: b).reverse.takeWhile
      (fun c => !isPathSeparator c) = b.reverse := by
    have hrev : (u.drop (volumeNameLen (u ++ s :: b)) ++ s :: b).reverse
        = b.reverse ++ s :: (u.drop (volumeNameLen (u ++ s :: b))).reverse := by
      simp
    rw [hrev]
    apply takeWhile_all_stop
    · intro c hc
      simp [hb c (List.mem_reverse.mp hc)]
    · simp [hs]
  rw [htw]
  have hlen : (u ++ s :: b).length - b.reverse.length = (u ++ [s]).length := by
    simp
    omega
  rw [hlen]
  have hsplit : u ++ s :: b = (u ++ [s]) ++ b := by simp
  rw [List.reverse_reverse, hsplit, List.take_left]

theorem filepathSplit_append (p : GoString) :
    (filepathSplit p).1 ++ (filepathSplit p).2 = p := by
  have key : ∀ (u w : GoString), p = u ++ w → p.take (p.length - w.length) = u := by
    intro u w h
    rw [h]
    have hl : (u ++ w).length - w.length = u.length := by simp
    rw [hl, List.take_left]
  obtain ⟨t, ht⟩ := List.takeWhile_prefix (fun c => !isPathSeparator c)
      (l := (p.drop (volumeNameLen p)).reverse)
  have hp2 : p.drop (volumeNameLen p)
      = t.reverse ++ ((p.drop (volumeNameLen p)).reverse.takeWhile
          (fun c => !isPathSeparator c)).reverse := by
    have h2 := congrArg List.reverse ht
    simpa using h2.symm
  have hp3 : p = (p.take (volumeNameLen p) ++ t.reverse)
      ++ ((p.drop (volumeNameLen p)).reverse.takeWhile
          (fun c => !isPathSeparator c)).reverse := by
    conv_lhs => rw [← List.take_append_drop (volumeNameLen p) p, hp2]
    rw [List.append_assoc]
  have hfst : (filepathSplit p).1 = p.take (p.length -
      ((p.drop (volumeNameLen p)).reverse.takeWhile (fun c => !isPathSeparator c)).length) :=
    rfl
  have hsnd : (filepathSplit p).2 = ((p.drop (volumeNameLen p)).reverse.takeWhile
      (fun c => !isPathSeparator c)).reverse := rfl
  rw [hfst, hsnd]
  have hlenr : ((p.drop (volumeNameLen p)).reverse.takeWhile
      (fun c => !isPathSeparator c)).length
      = (((p.drop (volumeNameLen p)).reverse.takeWhile
          (fun c => !isPathSeparator c)).reverse).length := by simp
  rw [hlenr, key _ _ hp3]
  exact hp3.symm

theorem filepathSplit_snd_sep_free (p : GoString) :
    ∀ c ∈ (filepathSplit p).2, isPathSeparator c = false := by
  intro c hc
  have h1 : c ∈ (p.drop (volumeNameLen p)).reverse.takeWhile (fun c => !isPathSeparator c) :=
    List.mem_reverse.mp hc
  have h2 := List.mem_takeWhile_imp h1
  simpa using h2

theorem filepathSplit_snd_nil (p : GoString) (h : (filepathSplit p).2 = []) :
    p.drop (volumeNameLen p) = [] ∨
      ∃ q x, p = q ++ [x] ∧ isPathSeparator x = true := by
  have htw : (p.drop (volumeNameLen p)).reverse.takeWhile (fun c => !isPathSeparator c)
      = [] := by
    have h2 : ((p.drop (volumeNameLen p)).reverse.takeWhile
        (fun c => !isPathSeparator c)).reverse = [] := h
    have h3 := congrArg List.reverse h2
    rw [List.reverse_reverse, List.reverse_nil] at h3
    exact h3
  cases hrev : (p.drop (volumeNameLen p)).reverse with
  | nil =>
    left
    have h3 := congrArg List.reverse hrev
    simpa using h3
  | cons x xs =>
    right
    rw [hrev, List.takeWhile_cons] at htw
    cases hsep : isPathSeparator x with
    | false => simp [hsep] at htw
    | true =>
      refine ⟨p.take (volumeNameLen p) ++ xs.reverse, x, ?_, hsep⟩
      have hdrop : p.drop (volumeNameLen p) = xs.reverse ++ [x] := by
        have h3 := congrArg List.reverse hrev
        simpa using h3
      conv_lhs => rw [← List.take_append_drop (volumeNameLen p) p, hdrop]
      rw [List.append_assoc]

theorem driveLetter_cons₂ (a b : Char) (r : GoString) :
    driveLetter (a :: b :: r) = (b == ':') := rfl

theorem driveLetter_take (p : GoString) (n : Nat) (hn : 2 ≤ n)
    (h : driveLetter (p.take n) = true) : driveLetter p = true := by
  cases p with
  | nil => simp [List.take_nil, driveLetter] at h
  | cons a q =>
    cases q with
    | nil =>
      cases n with
      | zero => omega
      | succ m => simp [driveLetter] at h
    | cons b r =>
      cases n with
      | zero => omega
      | succ m =>
        cases m with
        | zero => omega
        | succ k => simpa [driveLetter_cons₂] using h

theorem driveLetter_of_prefix (u p : GoString) (h2 : 2 ≤ u.length)
    (hpre : ∃ w, p = u ++ w) (h : driveLetter u = true) : driveLetter p = true := by
  obtain ⟨w, hw⟩ := hpre
  subst hw
  cases u with
  | nil => simp at h2
  | cons a q =>
    cases q with
    | nil => simp at h2
    | cons b r => simpa [driveLetter_cons₂] using h

theorem volumeNameLen_eq_two (p : GoString) (h : driveLetter p = true) :
    volumeNameLen p = 2 := by
  simp [volumeNameLen, h]

theorem volumeNameLen_eq_zero (p : GoString) (h : driveLetter p = false) :
    volumeNameLen p = 0 := by
  simp [volumeNameLen, h]

theorem driveLetter_shape (s : GoString) (h : driveLetter s = true) :
    ∃ a r, s = a :: ':' :: r := by
  cases s with
  | nil => simp [driveLetter] at h
  | cons a q =>
    cases q with
    | nil => simp [driveLetter] at h
    | cons b r =>
      have hb : b = ':' := by simpa [driveLetter_cons₂] using h
      exact ⟨a, r, by rw [hb]⟩

theorem length_two_shape (l : GoString) (h : l.length = 2) : ∃ x y, l = [x, y] := by
  cases l with
  | nil => simp at h
  | cons x q =>
    cases q with
    | nil => simp at h
    | cons y r =>
      cases r with
      | nil => exact ⟨x, y, rfl⟩
      | cons z t => simp at h

theorem malformed_arg_lt (path : GoString)
    (h0 : ¬ path.isEmpty = true)
    (h1 : ¬ (startsWith path ['/'] || startsWith path ['\\']) = true)
    (h4 : ¬ ((filepathSplit (canonicalPath path)).1 = path ∧
        (filepathSplit (canonicalPath path)).2 = [])) :
    (trimTrailing (filepathSplit (canonicalPath path)).1 ['/']).length < path.length := by
  have hclen : (canonicalPath path).length = path.length := length_canonicalPath path
  have happ := filepathSplit_append (canonicalPath path)
  have hpne : path ≠ [] := by
    intro he
    exact h0 (by simp [he])
  cases hfl : (filepathSplit (canonicalPath path)).2 with
  | cons y ys =>
    have hlenq := congrArg List.length happ
    rw [hfl] at hlenq
    simp only [List.length_append, List.length_cons] at hlenq
    have h2 := trimTrailing_length_le (filepathSplit (canonicalPath path)).1 ['/']
    omega
  | nil =>
    have hd_eq : (filepathSplit (canonicalPath path)).1 = canonicalPath path := by
      have h5 := happ
      rw [hfl] at h5
      simpa using h5
    have hne : canonicalPath path ≠ path := by
      intro he
      exact h4 ⟨by rw [hd_eq, he], hfl⟩
    have hbs : path.contains '\\' = true := by
      by_contra hb
      rw [Bool.not_eq_true] at hb
      exact hne (canonicalPath_eq_self path ((contains_eq_false_iff path '\\').mp hb))
    have hnobsc : '\\' ∉ canonicalPath path := not_bs_mem_canonicalPath path
    rcases filepathSplit_snd_nil (canonicalPath path) hfl with hcase | hcase
    · cases hdl : driveLetter (canonicalPath path) with
      | false =>
        rw [volumeNameLen_eq_zero _ hdl] at hcase
        simp only [List.drop_zero] at hcase
        have hplen : path.length = 0 := by
          have h5 : (canonicalPath path).length = 0 := by rw [hcase]; rfl
          omega
        exact absurd (List.length_eq_zero.mp hplen) hpne
      | true =>
        exfalso
        rw [volumeNameLen_eq_two _ hdl] at hcase
        obtain ⟨a, r, hcan⟩ := driveLetter_shape _ hdl
        rw [hcan] at hcase
        have hr : r = [] := by simpa using hcase
        rw [hr] at hcan
        have hplen : path.length = 2 := by
          have h5 := congrArg List.length hcan
          simp at h5
          omega
        obtain ⟨p0, p1, hpath⟩ := length_two_shape path hplen
        have hrepl2 : replaceBS path = [a, ':'] := by
          rw [← canonicalPath_eq_replaceBS, hcan]
        rw [hpath] at hrepl2
        simp only [replaceBS_cons, replaceBS_nil] at hrepl2
        have hp0 : (p0 == '\\') = false := by
          rw [hpath] at h1
          simp only [Bool.or_eq_true, not_or, Bool.not_eq_true] at h1
          have h1b := h1.2
          rwa [startsWith_cons_single] at h1b
        simp only [hp0, Bool.false_eq_true, if_false] at hrepl2
        rw [List.cons.injEq, List.cons.injEq] at hrepl2
        obtain ⟨e1, e3, -⟩ := hrepl2
        have hp1 : p1 = ':' := by
          cases hpc : (p1 == '\\') with
          | true => rw [hpc] at e3; simp at e3
          | false => rw [hpc] at e3; simpa using e3
        apply hne
        rw [hcan, hpath, hp1, e1]
    · obtain ⟨q, x, hqx, hx⟩ := hcase
      have hxne : x ≠ '\\' := by
        intro hxx
        apply hnobsc
        rw [hqx, hxx]
        exact List.mem_append_right _ (by simp)
      have hx2 : x = '/' := sep_eq_slash_of_not_bs x hx hxne
      rw [hd_eq, hqx, hx2, trimTrailing_append_single]
      have hql := congrArg List.length hqx
      simp at hql
      omega

theorem malformedFuel_irrel : ∀ (n : Nat) (p : GoString) (m : Nat),
    p.length < n → p.length < m → malformedFuel n p = malformedFuel m p := by
  intro n
  induction n with
  | zero => intro p m hn hm; omega
  | succ n ih =>
    intro p m hn hm
    cases m with
    | zero => omega
    | succ m =>
      simp only [malformedFuel]
      split_ifs with h0 h1 h2 h3
      · rfl
      · rfl
      · rfl
      · rfl
      · have hlt := malformed_arg_lt p h0 h1 h3
        exact ih _ m (by omega) (by omega)

theorem isMalformedFileName_eq_fuel (p : GoString) (n : Nat) (h : p.length < n) :
    IsMalformedFileName p = malformedFuel n p :=
  malformedFuel_irrel (p.length + 1) p n (by omega) h

/-- The recursion equation of the repository's `IsMalformedFileName`,
mirroring the Go source line by line. -/
theorem isMalformedFileName_unfold (p : GoString) :
    IsMalformedFileName p =
      if p.isEmpty then false
      else if startsWith p ['/'] || startsWith p ['\\'] then true
      else if (filepathSplit (canonicalPath p)).2 = ['.', '.'] then true
      else if (filepathSplit (canonicalPath p)).1 = p ∧
          (filepathSplit (canonicalPath p)).2 = [] then true
      else IsMalformedFileName (trimTrailing (filepathSplit (canonicalPath p)).1 ['/']) := by
  conv_lhs => rw [IsMalformedFileName]
  simp only [malformedFuel]
  split_ifs with h0 h1 h2 h3
  · rfl
  · rfl
  · rfl
  · rfl
  · exact (isMalformedFileName_eq_fuel _ p.length (malformed_arg_lt p h0 h1 h3)).symm

theorem backDir_arg_lt (f : GoString)
    (hg : ¬ (!containsDotDot f) = true) :
    (trimTrailing (replaceBS (filepathSplit f).1) ['/']).length < f.length := by
  have hgate : containsDotDot f = true := by simpa using hg
  have happ := filepathSplit_append f
  cases hfl : (filepathSplit f).2 with
  | cons y ys =>
    have hlenq := congrArg List.length happ
    rw [hfl] at hlenq
    simp only [List.length_append, List.length_cons] at hlenq
    have h2 := trimTrailing_length_le (replaceBS (filepathSplit f).1) ['/']
    rw [length_replaceBS] at h2
    omega
  | nil =>
    have hd_eq : (filepathSplit f).1 = f := by
      have h5 := happ
      rw [hfl] at h5
      simpa using h5
    rcases filepathSplit_snd_nil f hfl with hcase | hcase
    · cases hdl : driveLetter f with
      | false =>
        rw [volumeNameLen_eq_zero _ hdl] at hcase
        simp only [List.drop_zero] at hcase
        rw [hcase] at hgate
        simp [containsDotDot] at hgate
      | true =>
        exfalso
        rw [volumeNameLen_eq_two _ hdl] at hcase
        obtain ⟨a, r, hcan⟩ := driveLetter_shape _ hdl
        rw [hcan] at hcase
        have hr : r = [] := by simpa using hcase
        rw [hr] at hcan
        have hdd : containsDotDot [a, ':'] = false := by
          have h9 : startsWith [':'] ['.'] = false := by decide
          have h10 : containsDotDot [':'] = false := by decide
          simp [containsDotDot, startsWith, h9, h10]
        rw [hcan, hdd] at hgate
        simp at hgate
    · obtain ⟨q, x, hqx, hx⟩ := hcase
      have h8 : x = '/' ∨ x = '\\' := by
        have h9 := hx
        simp only [isPathSeparator, Bool.or_eq_true, beq_iff_eq] at h9
        exact h9
      have hrx : replaceBS [x] = ['/'] := by
        have h7 : (if x == '\\' then '/' else x) = '/' := by
          rcases h8 with h | h <;> simp [h]
        have h6 : replaceBS [x] = [if x == '\\' then '/' else x] := rfl
        rw [h6, h7]
      rw [hd_eq, hqx, replaceBS_append, hrx, trimTrailing_append_single]
      simp only [List.length_append, List.length_cons, List.length_nil]
      rw [length_replaceBS]
      omega

theorem backDirFuel_irrel : ∀ (n : Nat) (f : GoString) (m : Nat),
    f.length < n → f.length < m → backDirFuel n f = backDirFuel m f := by
  intro n
  induction n with
  | zero => intro f m hn hm; omega
  | succ n ih =>
    intro f m hn hm
    cases m with
    | zero => omega
    | succ m =>
      simp only [backDirFuel]
      split_ifs with h0 h1 h2
      · rfl
      · rfl
      · rfl
      · have hlt := backDir_arg_lt f h0
        exact ih _ m (by omega) (by omega)

theorem containsBackDir_eq_fuel (f : GoString) (n : Nat) (h : f.length < n) :
    containsBackDir f = backDirFuel n f :=
  backDirFuel_irrel (f.length + 1) f n (by omega) h

/-- The recursion equation of `containsBackDir` from build.go, mirroring the
Go source line by line. -/
theorem containsBackDir_unfold (f : GoString) :
    containsBackDir f =
      if !containsDotDot f then false
      else if f = ['.', '.'] then true
      else if (filepathSplit f).2 = ['.', '.'] then true
      else containsBackDir (trimTrailing (replaceBS (filepathSplit f).1) ['/']) := by
  conv_lhs => rw [containsBackDir]
  simp only [backDirFuel]
  split_ifs with h0 h1 h2
  · rfl
  · rfl
  · rfl
  · exact (containsBackDir_eq_fuel _ f.length (backDir_arg_lt f h0)).symm

theorem compsBy_ne_nil (P : Char → Bool) (l : GoString) : compsBy P l ≠ [] := by
  cases l with
  | nil => simp [compsBy]
  | cons c cs =>
    unfold compsBy
    split
    · simp
    · split
      · simp
      · simp

theorem compsBy_no_sep (P : Char → Bool) (l : GoString)
    (h : ∀ c ∈ l, P c = false) : compsBy P l = [l] := by
  induction l with
  | nil => rfl
  | cons c cs ih =>
    unfold compsBy
    rw [h c (List.mem_cons_self c cs)]
    simp only [Bool.false_eq_true, if_false]
    rw [ih fun d hd => h d (List.mem_cons_of_mem c hd)]

theorem compsBy_append_sep (P : Char → Bool) (s : Char) (b : GoString)
    (hs : P s = true) (hb : ∀ c ∈ b, P c = false) :
    ∀ a : GoString, compsBy P (a ++ s :: b) = compsBy P a ++ [b] := by
  intro a
  induction a with
  | nil =>
    simp only [List.nil_append]
    unfold compsBy
    rw [hs]
    simp only [if_true]
    rw [compsBy_no_sep P b hb]
    rfl
  | cons c cs ih =>
    simp only [List.cons_append]
    unfold compsBy
    cases hc : P c with
    | true =>
      simp only [if_true]
      rw [ih]
      rfl
    | false =>
      simp only [Bool.false_eq_true, if_false]
      rw [ih]
      cases hcs : compsBy P cs with
      | nil => exact absurd hcs (compsBy_ne_nil P cs)
      | cons h t => simp

theorem contains_singleton (x b : GoString) : ([b].contains x) = (x == b) := by
  rw [List.contains_cons]
  simp

theorem tail_append_singleton (l : List GoString) (b : GoString) (h : l ≠ []) :
    (l ++ [b]).tail = l.tail ++ [b] :=
  List.tail_append_of_ne_nil h

theorem filepathSplit_fst_eq_take (p : GoString) :
    (filepathSplit p).1 = p.take (p.length - (filepathSplit p).2.length) := by
  unfold filepathSplit
  simp

theorem filepathSplit_snd_length_le (p : GoString) :
    (filepathSplit p).2.length ≤ p.length - volumeNameLen p := by
  unfold filepathSplit
  simp only [List.length_reverse]
  calc ((p.drop (volumeNameLen p)).reverse.takeWhile (fun c => !isPathSeparator c)).length
      ≤ (p.drop (volumeNameLen p)).reverse.length :=
        (List.takeWhile_prefix (fun c => !isPathSeparator c)).length_le
    _ = p.length - volumeNameLen p := by simp

theorem split_fst_drive (c : GoString) (c0 : Char) (r : GoString)
    (hc : c = c0 :: ':' :: r) :
    ∃ t, (filepathSplit c).1 = c0 :: ':' :: t := by
  have hdl : driveLetter c = true := by rw [hc]; rfl
  have hvol : volumeNameLen c = 2 := volumeNameLen_eq_two c hdl
  have hle := filepathSplit_snd_length_le c
  rw [hvol] at hle
  have hclen : 2 ≤ c.length := by
    rw [hc]
    simp
  have hm : 2 ≤ c.length - (filepathSplit c).2.length := by omega
  obtain ⟨k, hk⟩ : ∃ k, c.length - (filepathSplit c).2.length = k + 2 :=
    ⟨c.length - (filepathSplit c).2.length - 2, by omega⟩
  refine ⟨r.take k, ?_⟩
  rw [filepathSplit_fst_eq_take, hk, hc]
  rfl

theorem trimTrailing_single_cases (s : GoString) (x : Char) :
    trimTrailing s [x] = s ∨ trimTrailing s [x] = s.dropLast := by
  unfold trimTrailing
  split
  · right
    rw [List.dropLast_eq_take s]
    rfl
  · left
    rfl

theorem trim_keep_two (c0 c1 : Char) (t : GoString) (h : (c1 == '/') = false) :
    ∃ t2, trimTrailing (c0 :: c1 :: t) ['/'] = c0 :: c1 :: t2 := by
  rcases List.eq_nil_or_concat t with rfl | ⟨q, y, hqy⟩
  · refine ⟨[], ?_⟩
    have h2 : (c0 :: c1 :: ([] : GoString)) = [c0] ++ [c1] := rfl
    rw [h2, trimTrailing_of_last_ne [c0] c1 '/' h]
  · have hconcat : t = q ++ [y] := by simpa using hqy
    rcases trimTrailing_single_cases (c0 :: c1 :: t) '/' with h1 | h1
    · exact ⟨t, h1⟩
    · refine ⟨q, ?_⟩
      rw [h1, hconcat]
      have h3 : c0 :: c1 :: (q ++ [y]) = (c0 :: c1 :: q) ++ [y] := by simp
      rw [h3, List.dropLast_concat]

theorem last_slash_decomp (q : GoString) (h : '/' ∈ q) :
    ∃ a b, q = a ++ '/' :: b ∧ ∀ c ∈ b, (c == '/') = false := by
  induction q with
  | nil => simp at h
  | cons c cs ih =>
    by_cases hcs : '/' ∈ cs
    · obtain ⟨a, b, hab, hb⟩ := ih hcs
      refine ⟨c :: a, b, ?_, hb⟩
      rw [List.cons_append, ← hab]
    · have hc : c = '/' := by
        rcases List.mem_cons.mp h with h1 | h1
        · exact h1.symm
        · exact absurd h1 hcs
      refine ⟨[], cs, by rw [hc]; rfl, ?_⟩
      intro d hd
      rw [beq_eq_false_iff_ne]
      intro hdd
      exact hcs (hdd ▸ hd)

theorem malformedNil : IsMalformedFileName [] = false := by decide

theorem startsWith_single_of_append (q a w : GoString) (x : Char) (h : q = a ++ w)
    (hq : startsWith q [x] = false) : startsWith a [x] = false := by
  cases a with
  | nil => rfl
  | cons a0 as =>
    rw [h, List.cons_append, startsWith_cons_single] at hq
    rw [startsWith_cons_single]
    exact hq

theorem driveLetter_of_append (q a w : GoString) (h : q = a ++ w)
    (hq : driveLetter q = false) : driveLetter a = false := by
  cases a with
  | nil => rfl
  | cons a0 as =>
    cases as with
    | nil => rfl
    | cons a1 as2 =>
      rw [h, List.cons_append, List.cons_append, driveLetter_cons₂] at hq
      rw [driveLetter_cons₂]
      exact hq

theorem malformed_bsfree : ∀ (n : Nat) (q : GoString), q.length ≤ n → '\\' ∉ q →
    startsWith q ['/'] = false → driveLetter q = false →
    IsMalformedFileName q = (hasDotDotComponent q || hasEmptyTailComponent q) := by
  intro n
  induction n with
  | zero =>
    intro q hlen hbs hsw hdl
    have hq : q = [] := List.length_eq_zero.mp (by omega)
    subst hq
    decide
  | succ n ih =>
    intro q hlen hbs hsw hdl
    cases q with
    | nil => decide
    | cons c cs =>
      have hc_ne_bs : (c == '\\') = false := by
        rw [beq_eq_false_iff_ne]
        intro h
        exact hbs (h ▸ List.mem_cons_self c cs)
      have hnosw2 : startsWith (c :: cs) ['\\'] = false := by
        rw [startsWith_cons_single]
        exact hc_ne_bs
      have hcanon : canonicalPath (c :: cs) = c :: cs := canonicalPath_eq_self _ hbs
      have hvol0 : volumeNameLen (c :: cs) = 0 := volumeNameLen_eq_zero _ hdl
      rw [isMalformedFileName_unfold, hcanon]
      rw [if_neg (show ¬(List.isEmpty (c :: cs) = true) by simp)]
      rw [if_neg (show ¬((startsWith (c :: cs) ['/'] || startsWith (c :: cs) ['\\']) = true)
        by rw [hsw, hnosw2]; decide)]
      by_cases hsl : '/' ∈ (c :: cs)
      · -- the string contains a slash: split at the last one
        obtain ⟨a, b, hab, hbslash⟩ := last_slash_decomp _ hsl
        have hbsep : ∀ d ∈ b, isPathSeparator d = false := by
          intro d hd
          have h1 : (d == '/') = false := hbslash d hd
          have h2 : (d == '\\') = false := by
            rw [beq_eq_false_iff_ne]
            intro h3
            apply hbs
            rw [hab]
            exact List.mem_append_right _ (List.mem_cons_of_mem _ (h3 ▸ hd))
          simp [isPathSeparator, h1, h2]
        have hsplit := filepathSplit_last_sep a b '/' (c :: cs) hab
          (by rw [hvol0]; omega) (by decide) hbsep
        have hsp1 : (filepathSplit (c :: cs)).1 = a ++ ['/'] := by rw [hsplit]
        have hsp2 : (filepathSplit (c :: cs)).2 = b := by rw [hsplit]
        have hcomps : comps (c :: cs) = comps a ++ [b] := by
          rw [comps, hab]
          exact compsBy_append_sep _ '/' b (by decide) hbslash a
        have hane : comps a ≠ [] := compsBy_ne_nil _ a
        by_cases hb1 : b = ['.', '.']
        · rw [if_pos (by rw [hsp2]; exact hb1)]
          have hdd : hasDotDotComponent (c :: cs) = true := by
            rw [hasDotDotComponent, hcomps, hb1, contains_append, contains_singleton]
            simp
          rw [hdd]
          simp
        · by_cases hb2 : b = []
          · rw [if_neg (show ¬((filepathSplit (c :: cs)).2 = ['.', '.'])
              by rw [hsp2, hb2]; simp)]
            rw [if_pos (show (filepathSplit (c :: cs)).1 = c :: cs ∧
                (filepathSplit (c :: cs)).2 = [] by
              constructor
              · rw [hsp1, hab, hb2]
              · rw [hsp2, hb2])]
            have het : hasEmptyTailComponent (c :: cs) = true := by
              rw [hasEmptyTailComponent, hcomps, hb2,
                tail_append_singleton _ _ hane, contains_append, contains_singleton]
              simp
            rw [het]
            simp
          · rw [if_neg (show ¬((filepathSplit (c :: cs)).2 = ['.', '.'])
              by rw [hsp2]; exact hb1)]
            rw [if_neg (show ¬((filepathSplit (c :: cs)).1 = c :: cs ∧
                (filepathSplit (c :: cs)).2 = []) by
              intro hcon
              exact hb2 (by rw [← hsp2, hcon.2]))]
            rw [hsp1, trimTrailing_append_single]
            have halen : a.length ≤ n := by
              have h5 := congrArg List.length hab
              have h6 := hlen
              simp at h5 h6
              omega
            have habs : '\\' ∉ a := by
              intro h
              exact hbs (by rw [hab]; exact List.mem_append_left _ h)
            have hasw : startsWith a ['/'] = false :=
              startsWith_single_of_append (c :: cs) a ('/' :: b) '/' hab hsw
            have hadl : driveLetter a = false :=
              driveLetter_of_append (c :: cs) a ('/' :: b) hab hdl
            rw [ih a halen habs hasw hadl]
            have hrw1 : hasDotDotComponent (c :: cs)
                = (hasDotDotComponent a || false) := by
              rw [hasDotDotComponent, hcomps, contains_append, contains_singleton,
                hasDotDotComponent]
              have hne : (['.', '.'] == b) = false := by
                rw [beq_eq_false_iff_ne]
                exact fun h => hb1 h.symm
              rw [hne]
            have hrw2 : hasEmptyTailComponent (c :: cs)
                = (hasEmptyTailComponent a || false) := by
              rw [hasEmptyTailComponent, hcomps, tail_append_singleton _ _ hane,
                contains_append, contains_singleton, hasEmptyTailComponent]
              have hne : (([] : GoString) == b) = false := by
                rw [beq_eq_false_iff_ne]
                exact fun h => hb2 h.symm
              rw [hne]
            rw [hrw1, hrw2, Bool.or_false, Bool.or_false]
      · -- no slash at all: the whole string is a single component
        have hslashfree : ∀ d ∈ (c :: cs), (d == '/') = false := by
          intro d hd
          rw [beq_eq_false_iff_ne]
          intro h
          exact hsl (h ▸ hd)
        have hsep_free : ∀ d ∈ (c :: cs).drop (volumeNameLen (c :: cs)),
            isPathSeparator d = false := by
          intro d hd
          have hd2 : d ∈ (c :: cs) := List.mem_of_mem_drop hd
          have h1 : (d == '/') = false := hslashfree d hd2
          have h2 : (d == '\\') = false := by
            rw [beq_eq_false_iff_ne]
            intro h3
            exact hbs (h3 ▸ hd2)
          simp [isPathSeparator, h1, h2]
        have hsplit := filepathSplit_sep_free (c :: cs) hsep_free
        rw [hvol0] at hsplit
        simp only [List.take_zero, List.drop_zero] at hsplit
        have hsp1 : (filepathSplit (c :: cs)).1 = [] := by rw [hsplit]
        have hsp2 : (filepathSplit (c :: cs)).2 = c :: cs := by rw [hsplit]
        have hcomps : comps (c :: cs) = [c :: cs] := compsBy_no_sep _ _ hslashfree
        by_cases hdd : (c :: cs) = ['.', '.']
        · rw [if_pos (by rw [hsp2]; exact hdd)]
          have hdd2 : hasDotDotComponent (c :: cs) = true := by
            rw [hasDotDotComponent, hcomps, contains_singleton, hdd]
            simp
          rw [hdd2]
          simp
        · rw [if_neg (show ¬((filepathSplit (c :: cs)).2 = ['.', '.'])
            by rw [hsp2]; exact hdd)]
          rw [if_neg (show ¬((filepathSplit (c :: cs)).1 = c :: cs ∧
              (filepathSplit (c :: cs)).2 = []) by
            intro hcon
            have h5 := hcon.1
            rw [hsp1] at h5
            exact List.cons_ne_nil c cs h5.symm)]
          rw [hsp1, trimTrailing_nil, malformedNil]
          have hdd3 : hasDotDotComponent (c :: cs) = false := by
            rw [hasDotDotComponent, hcomps, contains_singleton, beq_eq_false_iff_ne]
            exact fun h => hdd h.symm
          have het3 : hasEmptyTailComponent (c :: cs) = false := by
            rw [hasEmptyTailComponent, hcomps]
            rfl
          rw [hdd3, het3]
          rfl

theorem trimTrailing_subset (s suf : GoString) : trimTrailing s suf ⊆ s := by
  unfold trimTrailing
  split
  · exact List.take_subset _ _
  · exact List.Subset.refl s

theorem filepathSplit_fst_subset (p : GoString) : (filepathSplit p).1 ⊆ p := by
  rw [filepathSplit_fst_eq_take]
  exact List.take_subset _ _

theorem malformed_drive : ∀ (n : Nat) (p : GoString), p.length ≤ n → p ≠ [] →
    startsWith p ['/'] = false → startsWith p ['\\'] = false →
    driveLetter (canonicalPath p) = true →
    IsMalformedFileName p = true := by
  intro n
  induction n with
  | zero =>
    intro p hlen hne _ _ _
    exact absurd (List.length_eq_zero.mp (by omega)) hne
  | succ n ih =>
    intro p hlen hne hsw1 hsw2 hdl
    rw [isMalformedFileName_unfold]
    rw [if_neg (show ¬(p.isEmpty = true) by
      intro h
      exact hne (by simpa using h))]
    rw [if_neg (show ¬((startsWith p ['/'] || startsWith p ['\\']) = true)
      by rw [hsw1, hsw2]; decide)]
    by_cases h3 : (filepathSplit (canonicalPath p)).2 = ['.', '.']
    · rw [if_pos h3]
    · rw [if_neg h3]
      by_cases h4 : (filepathSplit (canonicalPath p)).1 = p ∧
          (filepathSplit (canonicalPath p)).2 = []
      · rw [if_pos h4]
      · rw [if_neg h4]
        obtain ⟨c0, r, hcan⟩ := driveLetter_shape _ hdl
        obtain ⟨t, hd⟩ := split_fst_drive _ c0 r hcan
        have hc0 : (c0 == '/') = false := by
          cases p with
          | nil => exact absurd rfl hne
          | cons p0 ps =>
            have h5 : canonicalPath (p0 :: ps)
                = (if p0 == '\\' then '/' else p0) :: replaceBS ps := by
              rw [canonicalPath_eq_replaceBS, replaceBS_cons]
            rw [hcan] at h5
            have he0 : c0 = if p0 == '\\' then '/' else p0 := (List.cons.injEq .. ▸ h5).1
            have hp0bs : (p0 == '\\') = false := by
              rw [startsWith_cons_single] at hsw2
              exact hsw2
            have hp0sl : (p0 == '/') = false := by
              rw [startsWith_cons_single] at hsw1
              exact hsw1
            rw [hp0bs] at he0
            simp only [Bool.false_eq_true, if_false] at he0
            rw [he0]
            exact hp0sl
        obtain ⟨t2, harg⟩ := trim_keep_two c0 ':' t (by decide)
        have hlt := malformed_arg_lt p
          (show ¬ p.isEmpty = true by
            intro h
            exact hne (by simpa using h))
          (by rw [hsw1, hsw2]; decide)
          h4
        rw [hd, harg] at hlt
        rw [hd, harg]
        have hbs_arg : '\\' ∉ (c0 :: ':' :: t2) := by
          intro h
          rw [← harg] at h
          have h5 := trimTrailing_subset (c0 :: ':' :: t) ['/'] h
          rw [← hd] at h5
          exact not_bs_mem_canonicalPath p (filepathSplit_fst_subset (canonicalPath p) h5)
        apply ih (c0 :: ':' :: t2) (by omega) (by simp)
        · rw [startsWith_cons_single]
          exact hc0
        · rw [startsWith_cons_single, beq_eq_false_iff_ne]
          intro h
          exact hbs_arg (h ▸ List.mem_cons_self _ _)
        · rw [canonicalPath_eq_self _ hbs_arg, driveLetter_cons₂]
          decide

theorem take_sub_length (u w : GoString) :
    (u ++ w).take ((u ++ w).length - w.length) = u := by
  have hl : (u ++ w).length - w.length = u.length := by simp
  rw [hl, List.take_left]

theorem trimTrailing_append_exists (s suf : GoString) :
    ∃ w, s = trimTrailing s suf ++ w := by
  unfold trimTrailing
  split
  · exact ⟨s.drop (s.length - suf.length), (List.take_append_drop _ s).symm⟩
  · exact ⟨[], by simp⟩

theorem dropWhile_head_not (P : Char → Bool) (l : List Char) (s : Char) (dw : List Char)
    (h : List.dropWhile P l = s :: dw) : P s = false := by
  induction l with
  | nil => simp at h
  | cons a as ih =>
    rw [List.dropWhile_cons] at h
    by_cases hp : P a = true
    · rw [if_pos hp] at h
      exact ih h
    · rw [if_neg hp] at h
      rw [List.cons.injEq] at h
      rw [← h.1]
      rwa [Bool.not_eq_true] at hp

theorem split_fst_vol0 (p : GoString) (hv : volumeNameLen p = 0) :
    (filepathSplit p).1 = [] ∨
      ∃ q s, (filepathSplit p).1 = q ++ [s] ∧ isPathSeparator s = true := by
  have h1 : (filepathSplit p).1 = p.take (p.length - (filepathSplit p).2.length) :=
    filepathSplit_fst_eq_take p
  have hsplit2 : (filepathSplit p).2 = (p.reverse.takeWhile
      (fun c => !isPathSeparator c)).reverse := by
    show ((p.drop (volumeNameLen p)).reverse.takeWhile (fun c => !isPathSeparator c)).reverse
      = (p.reverse.takeWhile (fun c => !isPathSeparator c)).reverse
    rw [hv, List.drop_zero]
  cases hdw : p.reverse.dropWhile (fun c => !isPathSeparator c) with
  | nil =>
    left
    have htw : p.reverse.takeWhile (fun c => !isPathSeparator c) = p.reverse := by
      have h2 := List.takeWhile_append_dropWhile (p := fun c => !isPathSeparator c)
        (l := p.reverse)
      rw [hdw] at h2
      simpa using h2
    rw [h1, hsplit2, htw]
    simp
  | cons s dw2 =>
    right
    have hsep : isPathSeparator s = true := by
      have h2 := dropWhile_head_not (fun c => !isPathSeparator c) p.reverse s dw2 hdw
      simpa using h2
    refine ⟨dw2.reverse, s, ?_, hsep⟩
    have hdecomp := List.takeWhile_append_dropWhile (p := fun c => !isPathSeparator c)
      (l := p.reverse)
    rw [hdw] at hdecomp
    obtain ⟨t, htw⟩ : ∃ t, p.reverse.takeWhile (fun c => !isPathSeparator c) = t := ⟨_, rfl⟩
    rw [htw] at hdecomp hsplit2
    have hp : p = (dw2.reverse ++ [s]) ++ t.reverse := by
      have h4 := congrArg List.reverse hdecomp.symm
      rw [List.reverse_reverse, List.reverse_append, List.reverse_cons] at h4
      exact h4
    have hlen : (filepathSplit p).2.length = t.length := by
      rw [hsplit2, List.length_reverse]
    rw [h1, hlen, hp]
    have hlr : t.length = t.reverse.length := (List.length_reverse t).symm
    rw [hlr]
    exact take_sub_length _ _

theorem malformed_characterization_aux (p : GoString) :
    IsMalformedFileName p = malformedSpec p := by
  cases p with
  | nil => decide
  | cons c cs =>
    by_cases hsw1 : startsWith (c :: cs) ['/'] = true
    · rw [isMalformedFileName_unfold]
      rw [if_neg (show ¬(List.isEmpty (c :: cs) = true) by simp)]
      rw [if_pos (show (startsWith (c :: cs) ['/'] || startsWith (c :: cs) ['\\']) = true by
        rw [hsw1, Bool.true_or])]
      simp [malformedSpec, hsw1]
    · have hsw1f : startsWith (c :: cs) ['/'] = false := by
        rwa [Bool.not_eq_true] at hsw1
      by_cases hsw2 : startsWith (c :: cs) ['\\'] = true
      · rw [isMalformedFileName_unfold]
        rw [if_neg (show ¬(List.isEmpty (c :: cs) = true) by simp)]
        rw [if_pos (show (startsWith (c :: cs) ['/'] || startsWith (c :: cs) ['\\']) = true by
          rw [hsw2, Bool.or_true])]
        simp [malformedSpec, hsw2]
      · have hsw2f : startsWith (c :: cs) ['\\'] = false := by
          rwa [Bool.not_eq_true] at hsw2
        by_cases hdl : driveLetter (canonicalPath (c :: cs)) = true
        · rw [malformed_drive (c :: cs).length (c :: cs) (Nat.le_refl _)
            (List.cons_ne_nil c cs) hsw1f hsw2f hdl]
          simp [malformedSpec, hdl]
        · have hdlf : driveLetter (canonicalPath (c :: cs)) = false := by
            rwa [Bool.not_eq_true] at hdl
          by_cases hbs : '\\' ∈ (c :: cs)
          · -- the hard case: the path contains a backslash
            have hcont : (c :: cs).contains '\\' = true := (contains_iff_mem _ _).mpr hbs
            have heff : effectiveCanonical (c :: cs)
                = trimTrailing (canonicalPath (c :: cs)) ['/'] := by
              rw [effectiveCanonical, if_pos hcont]
            have hnobs : '\\' ∉ canonicalPath (c :: cs) := not_bs_mem_canonicalPath _
            have hc2 : (c == '\\') = false := by
              rw [startsWith_cons_single] at hsw2f
              exact hsw2f
            have hc1 : (c == '/') = false := by
              rw [startsWith_cons_single] at hsw1f
              exact hsw1f
            have hcansw : startsWith (canonicalPath (c :: cs)) ['/'] = false := by
              have hhead : canonicalPath (c :: cs) = c :: replaceBS cs := by
                rw [canonicalPath_eq_replaceBS, replaceBS_cons, hc2]
                simp only [Bool.false_eq_true, if_false]
              rw [hhead, startsWith_cons_single]
              exact hc1
            have hvol0 : volumeNameLen (canonicalPath (c :: cs)) = 0 :=
              volumeNameLen_eq_zero _ hdlf
            have happ := filepathSplit_append (canonicalPath (c :: cs))
            rw [isMalformedFileName_unfold]
            rw [if_neg (show ¬(List.isEmpty (c :: cs) = true) by simp)]
            rw [if_neg (show ¬((startsWith (c :: cs) ['/']
                || startsWith (c :: cs) ['\\']) = true) by rw [hsw1f, hsw2f]; decide)]
            by_cases h3 : (filepathSplit (canonicalPath (c :: cs))).2 = ['.', '.']
            · rw [if_pos h3]
              have hddc : hasDotDotComponent (effectiveCanonical (c :: cs)) = true := by
                rw [heff]
                rw [h3] at happ
                have htrim : trimTrailing (canonicalPath (c :: cs)) ['/']
                    = canonicalPath (c :: cs) := by
                  conv_lhs => rw [← happ]
                  have hshape : (filepathSplit (canonicalPath (c :: cs))).1 ++ ['.', '.']
                      = ((filepathSplit (canonicalPath (c :: cs))).1 ++ ['.']) ++ ['.'] := by
                    simp
                  rw [hshape, trimTrailing_of_last_ne _ '.' '/' (by decide)]
                  rw [← hshape, happ]
                rw [htrim]
                rcases split_fst_vol0 _ hvol0 with hd0 | ⟨q, s, hds, hsep⟩
                · rw [← happ, hd0]
                  decide
                · have hs_mem : s ∈ canonicalPath (c :: cs) := by
                    apply filepathSplit_fst_subset
                    rw [hds]
                    exact List.mem_append_right _ (by simp)
                  have hs2 : s = '/' := sep_eq_slash_of_not_bs s hsep
                    (fun he => hnobs (he ▸ hs_mem))
                  have hcan2 : canonicalPath (c :: cs) = q ++ '/' :: ['.', '.'] := by
                    rw [← happ, hds, hs2]
                    simp
                  rw [hcan2]
                  simp only [hasDotDotComponent, comps]
                  rw [compsBy_append_sep _ '/' ['.', '.'] (by decide) (by decide) q]
                  rw [contains_append, contains_singleton]
                  simp
              simp [malformedSpec, hddc]
            · rw [if_neg h3]
              by_cases h4 : (filepathSplit (canonicalPath (c :: cs))).1 = (c :: cs) ∧
                  (filepathSplit (canonicalPath (c :: cs))).2 = []
              · exfalso
                apply not_bs_mem_canonicalPath (c :: cs)
                apply filepathSplit_fst_subset
                rw [h4.1]
                exact hbs
              · rw [if_neg h4]
                cases hfl : (filepathSplit (canonicalPath (c :: cs))).2 with
                | nil =>
                  have hd_eq : (filepathSplit (canonicalPath (c :: cs))).1
                      = canonicalPath (c :: cs) := by
                    rw [hfl] at happ
                    simpa using happ
                  rw [hd_eq]
                  obtain ⟨w, hw⟩ := trimTrailing_append_exists (canonicalPath (c :: cs)) ['/']
                  have harg_bs : '\\' ∉ trimTrailing (canonicalPath (c :: cs)) ['/'] := by
                    intro h
                    exact hnobs (trimTrailing_subset _ _ h)
                  have harg_sw : startsWith (trimTrailing (canonicalPath (c :: cs)) ['/'])
                      ['/'] = false := startsWith_single_of_append _ _ w '/' hw hcansw
                  have harg_dl : driveLetter (trimTrailing (canonicalPath (c :: cs)) ['/'])
                      = false := driveLetter_of_append _ _ w hw hdlf
                  rw [malformed_bsfree (trimTrailing (canonicalPath (c :: cs)) ['/']).length _
                    (Nat.le_refl _) harg_bs harg_sw harg_dl]
                  simp [malformedSpec, hsw1f, hsw2f, hdlf, heff]
                | cons y ys =>
                  have hfl_sep_free := filepathSplit_snd_sep_free (canonicalPath (c :: cs))
                  have hfl_sep_free2 : ∀ d ∈ (y :: ys), isPathSeparator d = false := by
                    intro d hd
                    apply hfl_sep_free
                    rw [hfl]
                    exact hd
                  have heff2 : trimTrailing (canonicalPath (c :: cs)) ['/']
                      = canonicalPath (c :: cs) := by
                    rw [hfl] at happ
                    rcases List.eq_nil_or_concat (y :: ys) with h5 | ⟨q2, z, h5⟩
                    · simp at h5
                    · have h6 : y :: ys = q2 ++ [z] := by simpa using h5
                      have hz : isPathSeparator z = false := by
                        apply hfl_sep_free2
                        rw [h6]
                        exact List.mem_append_right _ (by simp)
                      have hzl : (z == '/') = false := by
                        rw [beq_eq_false_iff_ne]
                        intro he
                        rw [he] at hz
                        simp [isPathSeparator] at hz
                      conv_lhs => rw [← happ]
                      rw [h6, ← List.append_assoc, trimTrailing_of_last_ne _ z '/' hzl]
                      rw [List.append_assoc, ← h6, happ]
                  rcases split_fst_vol0 _ hvol0 with hd0 | ⟨q, s, hds, hsep⟩
                  · rw [hd0, trimTrailing_nil, malformedNil]
                    have hcan2 : canonicalPath (c :: cs) = y :: ys := by
                      rw [hfl, hd0] at happ
                      simpa using happ.symm
                    have hsl_free : ∀ d ∈ (y :: ys), (d == '/') = false := by
                      intro d hd
                      have h7 := hfl_sep_free2 d hd
                      rw [beq_eq_false_iff_ne]
                      intro he
                      rw [he] at h7
                      simp [isPathSeparator] at h7
                    have hddc : hasDotDotComponent (effectiveCanonical (c :: cs)) = false := by
                      rw [heff, heff2, hcan2]
                      simp only [hasDotDotComponent, comps]
                      rw [compsBy_no_sep _ _ hsl_free, contains_singleton,
                        beq_eq_false_iff_ne]
                      intro he
                      exact h3 (by rw [hfl, ← he])
                    have hetc : hasEmptyTailComponent (effectiveCanonical (c :: cs))
                        = false := by
                      rw [heff, heff2, hcan2]
                      simp only [hasEmptyTailComponent, comps]
                      rw [compsBy_no_sep _ _ hsl_free]
                      rfl
                    simp [malformedSpec, hsw1f, hsw2f, hdlf, hddc, hetc]
                  · have hs_mem : s ∈ canonicalPath (c :: cs) := by
                      apply filepathSplit_fst_subset
                      rw [hds]
                      exact List.mem_append_right _ (by simp)
                    have hs2 : s = '/' := sep_eq_slash_of_not_bs s hsep
                      (fun he => hnobs (he ▸ hs_mem))
                    rw [hds, hs2, trimTrailing_append_single]
                    have hcan2 : canonicalPath (c :: cs) = q ++ '/' :: (y :: ys) := by
                      rw [hfl] at happ
                      rw [← happ, hds, hs2]
                      simp
                    obtain ⟨w, hw⟩ : ∃ w, canonicalPath (c :: cs) = q ++ w :=
                      ⟨'/' :: (y :: ys), hcan2⟩
                    have hq_bs : '\\' ∉ q := fun h =>
                      hnobs (by rw [hw]; exact List.mem_append_left _ h)
                    have hq_sw : startsWith q ['/'] = false :=
                      startsWith_single_of_append _ _ w '/' hw hcansw
                    have hq_dl : driveLetter q = false := driveLetter_of_append _ _ w hw hdlf
                    rw [malformed_bsfree q.length q (Nat.le_refl _) hq_bs hq_sw hq_dl]
                    have hfl_slash_free : ∀ d ∈ (y :: ys), (d == '/') = false := by
                      intro d hd
                      have h7 := hfl_sep_free2 d hd
                      rw [beq_eq_false_iff_ne]
                      intro he
                      rw [he] at h7
                      simp [isPathSeparator] at h7
                    have hcomps : comps (canonicalPath (c :: cs))
                        = comps q ++ [y :: ys] := by
                      rw [hcan2]
                      simp only [comps]
                      exact compsBy_append_sep _ '/' _ (by decide) hfl_slash_free q
                    have hne1 : (['.', '.'] == (y :: ys)) = false := by
                      rw [beq_eq_false_iff_ne]
                      intro he
                      exact h3 (by rw [hfl, ← he])
                    have hddc : hasDotDotComponent (effectiveCanonical (c :: cs))
                        = hasDotDotComponent q := by
                      rw [heff, heff2]
                      simp only [hasDotDotComponent]
                      rw [hcomps, contains_append, contains_singleton, hne1, Bool.or_false]
                    have hne2 : (([] : GoString) == (y :: ys)) = false := rfl
                    have hetc : hasEmptyTailComponent (effectiveCanonical (c :: cs))
                        = hasEmptyTailComponent q := by
                      rw [heff, heff2]
                      simp only [hasEmptyTailComponent]
                      rw [hcomps, tail_append_singleton (comps q) _
                          (show comps q ≠ [] from compsBy_ne_nil _ q),
                        contains_append, contains_singleton, hne2, Bool.or_false]
                    simp [malformedSpec, hsw1f, hsw2f, hdlf, hddc, hetc]
          · -- no backslash
            have hcont : (c :: cs).contains '\\' = false := (contains_eq_false_iff _ _).mpr hbs
            have hcanon : canonicalPath (c :: cs) = (c :: cs) := canonicalPath_eq_self _ hbs
            have heff : effectiveCanonical (c :: cs) = (c :: cs) := by
              rw [effectiveCanonical, if_neg (show ¬((c :: cs).contains '\\' = true) by
                rw [hcont]; decide)]
            have hdlf2 : driveLetter (c :: cs) = false := by
              rw [← hcanon]
              exact hdlf
            rw [malformed_bsfree (c :: cs).length (c :: cs) (Nat.le_refl _) hbs hsw1f hdlf2]
            simp [malformedSpec, hsw1f, hsw2f, hdlf, heff]

theorem beq_cons (x y : Char) (xs ys : GoString) :
    ((x :: xs : GoString) == (y :: ys)) = ((x == y) && (xs == ys)) := rfl

theorem sep_ne_dot (s : Char) (hs : isPathSeparator s = true) : (s == '.') = false := by
  simp only [isPathSeparator, Bool.or_eq_true, beq_iff_eq] at hs
  rcases hs with h | h <;> rw [h] <;> decide

theorem sep_replace_eq_slash (s : Char) (hs : isPathSeparator s = true) :
    (if s == '\\' then '/' else s) = '/' := by
  simp only [isPathSeparator, Bool.or_eq_true, beq_iff_eq] at hs
  rcases hs with h | h <;> rw [h] <;> decide

theorem replace_char_colon (x : Char) :
    ((if x == '\\' then '/' else x) == ':') = (x == ':') := by
  by_cases h : x = '\\'
  · rw [h]; decide
  · rw [if_neg (by simpa using h)]

theorem replace_char_dot (x : Char) :
    ((if x == '\\' then '/' else x) == '.') = (x == '.') := by
  by_cases h : x = '\\'
  · rw [h]; decide
  · rw [if_neg (by simpa using h)]

theorem replace_char_sep (x : Char) :
    isPathSeparator (if x == '\\' then '/' else x) = isPathSeparator x := by
  by_cases h : x = '\\'
  · rw [h]; decide
  · rw [if_neg (by simpa using h)]

theorem compsW_replaceBS (q : GoString) : compsW (replaceBS q) = compsW q := by
  induction q with
  | nil => rfl
  | cons c cs ih =>
    simp only [compsW] at ih ⊢
    rw [replaceBS_cons]
    by_cases hc : isPathSeparator c = true
    · have hc2 : isPathSeparator (if c == '\\' then '/' else c) = true := by
        rw [replace_char_sep]; exact hc
      simp only [compsBy]
      rw [if_pos hc2, if_pos hc, ih]
    · have hcf : isPathSeparator c = false := by rwa [Bool.not_eq_true] at hc
      have hc2 : c ≠ '\\' := by
        intro he
        rw [he] at hcf
        simp [isPathSeparator] at hcf
      have hceq : (if c == '\\' then '/' else c) = c := by
        rw [if_neg (by simpa using hc2)]
      rw [hceq]
      simp only [compsBy]
      rw [if_neg (by rw [hcf]; simp), if_neg (by rw [hcf]; simp), ih]

theorem compsBy_head_prefix (P : Char → Bool) :
    ∀ (cs h : GoString) (t : List GoString), compsBy P cs = h :: t → ∃ r, cs = h ++ r := by
  intro cs
  induction cs with
  | nil =>
    intro h t hc
    simp only [compsBy] at hc
    rw [List.cons.injEq] at hc
    exact ⟨[], by rw [← hc.1]; rfl⟩
  | cons c cs2 ih =>
    intro h t hc
    simp only [compsBy] at hc
    by_cases hp : P c = true
    · rw [if_pos hp, List.cons.injEq] at hc
      exact ⟨c :: cs2, by rw [← hc.1]; rfl⟩
    · rw [if_neg hp] at hc
      cases hcb : compsBy P cs2 with
      | nil => exact absurd hcb (compsBy_ne_nil P cs2)
      | cons h2 t2 =>
        rw [hcb] at hc
        have hc2 : (c :: h2) :: t2 = h :: t := hc
        rw [List.cons.injEq] at hc2
        obtain ⟨r, hr⟩ := ih h2 t2 hcb
        exact ⟨r, by rw [← hc2.1, hr]; rfl⟩

theorem startsWith_append_left : ∀ (a r : GoString), startsWith (a ++ r) a = true := by
  intro a
  induction a with
  | nil => intro r; exact startsWith_nil_right r
  | cons x xs ih =>
    intro r
    show startsWith (x :: (xs ++ r)) (x :: xs) = true
    simp only [startsWith]
    rw [ih r]
    simp

theorem containsDotDot_cons (c : Char) (l : GoString) :
    containsDotDot (c :: l) = (startsWith (c :: l) ['.', '.'] || containsDotDot l) := rfl

theorem containsDotDot_of_tail (c : Char) (l : GoString) (h : containsDotDot l = true) :
    containsDotDot (c :: l) = true := by
  rw [containsDotDot_cons, h, Bool.or_true]

theorem startsWith_dotdot (r : GoString) :
    startsWith ('.' :: '.' :: r) ['.', '.'] = true := by
  simp [startsWith, startsWith_nil_right]

theorem containsDotDot_of_startsWith (l : GoString) (h : startsWith l ['.', '.'] = true) :
    containsDotDot l = true := by
  cases l with
  | nil => exact absurd h (by decide)
  | cons c cs => rw [containsDotDot_cons, h, Bool.true_or]

theorem dotdot_of_compsBy (P : Char → Bool) :
    ∀ f : GoString, (compsBy P f).contains ['.', '.'] = true → containsDotDot f = true := by
  intro f
  induction f with
  | nil =>
    intro h
    simp only [compsBy] at h
    rw [contains_singleton] at h
    exact absurd h (by decide)
  | cons c cs ih =>
    intro h
    simp only [compsBy] at h
    by_cases hp : P c = true
    · rw [if_pos hp, List.contains_cons] at h
      have hne : ((['.', '.'] : GoString) == ([] : GoString)) = false := rfl
      rw [hne, Bool.false_or] at h
      exact containsDotDot_of_tail c cs (ih h)
    · rw [if_neg hp] at h
      cases hcb : compsBy P cs with
      | nil => exact absurd hcb (compsBy_ne_nil P cs)
      | cons h2 t2 =>
        rw [hcb] at h
        have h3 : ((c :: h2) :: t2).contains ['.', '.'] = true := h
        rw [List.contains_cons] at h3
        cases hfst : ((['.', '.'] : GoString) == (c :: h2)) with
        | true =>
          have he : (['.', '.'] : GoString) = c :: h2 := eq_of_beq hfst
          obtain ⟨r, hr⟩ := compsBy_head_prefix P cs h2 t2 hcb
          rw [List.cons.injEq] at he
          apply containsDotDot_of_startsWith
          rw [hr, ← he.1, ← he.2]
          exact startsWith_dotdot r
        | false =>
          rw [hfst, Bool.false_or] at h3
          apply containsDotDot_of_tail
          apply ih
          rw [hcb, List.contains_cons, h3]
          simp

theorem driveRel_imp_dotdot (f : GoString) (h : driveRelDotDot f = true) :
    containsDotDot f = true := by
  rcases f with _ | ⟨a, _ | ⟨b, _ | ⟨c, _ | ⟨d, _ | ⟨e, rest⟩⟩⟩⟩⟩
  · exact Bool.noConfusion h
  · exact Bool.noConfusion h
  · exact Bool.noConfusion h
  · exact Bool.noConfusion h
  · have h2 : (b == ':' && c == '.' && d == '.') = true := h
    simp only [Bool.and_eq_true, beq_iff_eq] at h2
    apply containsDotDot_of_tail
    apply containsDotDot_of_tail
    rw [h2.1.2, h2.2]
    decide
  · have h2 : (b == ':' && c == '.' && d == '.' && isPathSeparator e) = true := h
    simp only [Bool.and_eq_true, beq_iff_eq] at h2
    apply containsDotDot_of_tail
    apply containsDotDot_of_tail
    rw [h2.1.1.2, h2.1.2]
    exact containsDotDot_of_startsWith _ (startsWith_dotdot (e :: rest))

theorem driveRel_of_dl_false (f : GoString) (h : driveLetter f = false) :
    driveRelDotDot f = false := by
  rcases f with _ | ⟨a, _ | ⟨b, _ | ⟨c, _ | ⟨d, _ | ⟨e, rest⟩⟩⟩⟩⟩
  · rfl
  · rfl
  · rfl
  · rfl
  · have hb : (b == ':') = false := h
    show (b == ':' && c == '.' && d == '.') = false
    rw [hb]
    simp
  · have hb : (b == ':') = false := h
    show (b == ':' && c == '.' && d == '.' && isPathSeparator e) = false
    rw [hb]
    simp

theorem driveRelDotDot_replaceBS (q : GoString) :
    driveRelDotDot (replaceBS q) = driveRelDotDot q := by
  rcases q with _ | ⟨a, _ | ⟨b, _ | ⟨c, _ | ⟨d, _ | ⟨e, rest⟩⟩⟩⟩⟩
  · rfl
  · rfl
  · rfl
  · rfl
  · show ((if b == '\\' then '/' else b) == ':' &&
        (if c == '\\' then '/' else c) == '.' &&
        (if d == '\\' then '/' else d) == '.') = (b == ':' && c == '.' && d == '.')
    rw [replace_char_colon, replace_char_dot, replace_char_dot]
  · show ((if b == '\\' then '/' else b) == ':' &&
        (if c == '\\' then '/' else c) == '.' &&
        (if d == '\\' then '/' else d) == '.' &&
        isPathSeparator (if e == '\\' then '/' else e))
      = (b == ':' && c == '.' && d == '.' && isPathSeparator e)
    rw [replace_char_colon, replace_char_dot, replace_char_dot, replace_char_sep]

theorem driveRelDotDot_append_sep (q : GoString) (s : Char) (w : GoString)
    (hs : isPathSeparator s = true) (hq : 2 ≤ q.length) :
    driveRelDotDot (q ++ s :: w) = driveRelDotDot q := by
  rcases q with _ | ⟨a, _ | ⟨b, _ | ⟨c, _ | ⟨d, q5⟩⟩⟩⟩
  · simp at hq
  · simp at hq
  · rcases w with _ | ⟨x, _ | ⟨y, r2⟩⟩
    · rfl
    · have hr : driveRelDotDot [a, b] = false := rfl
      rw [hr]
      show (b == ':' && s == '.' && x == '.') = false
      rw [sep_ne_dot s hs]
      simp
    · have hr : driveRelDotDot [a, b] = false := rfl
      rw [hr]
      show (b == ':' && s == '.' && x == '.' && isPathSeparator y) = false
      rw [sep_ne_dot s hs]
      simp
  · rcases w with _ | ⟨x, r⟩
    · have hr : driveRelDotDot [a, b, c] = false := rfl
      rw [hr]
      show (b == ':' && c == '.' && s == '.') = false
      rw [sep_ne_dot s hs]
      simp
    · have hr : driveRelDotDot [a, b, c] = false := rfl
      rw [hr]
      show (b == ':' && c == '.' && s == '.' && isPathSeparator x) = false
      rw [sep_ne_dot s hs]
      simp
  · rcases q5 with _ | ⟨e, q6⟩
    · show (b == ':' && c == '.' && d == '.' && isPathSeparator s)
        = (b == ':' && c == '.' && d == '.')
      rw [hs]
      simp
    · rfl

theorem split_fst_struct (p : GoString) :
    (filepathSplit p).1 = p.take (volumeNameLen p) ∨
      ∃ q s, (filepathSplit p).1 = q ++ [s] ∧ isPathSeparator s = true ∧
        volumeNameLen p ≤ q.length := by
  have h1 := filepathSplit_fst_eq_take p
  have hsplit2 : (filepathSplit p).2
      = ((p.drop (volumeNameLen p)).reverse.takeWhile (fun c => !isPathSeparator c)).reverse :=
    rfl
  have hvle := volumeNameLen_le_length p
  cases hdw : (p.drop (volumeNameLen p)).reverse.dropWhile (fun c => !isPathSeparator c) with
  | nil =>
    left
    have htw : (p.drop (volumeNameLen p)).reverse.takeWhile (fun c => !isPathSeparator c)
        = (p.drop (volumeNameLen p)).reverse := by
      have h2 := List.takeWhile_append_dropWhile (p := fun c => !isPathSeparator c)
        (l := (p.drop (volumeNameLen p)).reverse)
      rw [hdw] at h2
      simpa using h2
    have hlen : (filepathSplit p).2.length = p.length - volumeNameLen p := by
      rw [hsplit2, htw]
      simp
    rw [h1, hlen]
    congr 1
    omega
  | cons s dw2 =>
    right
    have hsep : isPathSeparator s = true := by
      have h2 := dropWhile_head_not (fun c => !isPathSeparator c)
        (p.drop (volumeNameLen p)).reverse s dw2 hdw
      simpa using h2
    refine ⟨p.take (volumeNameLen p) ++ dw2.reverse, s, ?_, hsep, ?_⟩
    · have hdecomp := List.takeWhile_append_dropWhile (p := fun c => !isPathSeparator c)
        (l := (p.drop (volumeNameLen p)).reverse)
      rw [hdw] at hdecomp
      obtain ⟨t, htw⟩ : ∃ t, (p.drop (volumeNameLen p)).reverse.takeWhile
          (fun c => !isPathSeparator c) = t := ⟨_, rfl⟩
      rw [htw] at hdecomp
      have hdrop : p.drop (volumeNameLen p) = (dw2.reverse ++ [s]) ++ t.reverse := by
        have h4 := congrArg List.reverse hdecomp.symm
        rw [List.reverse_reverse, List.reverse_append, List.reverse_cons] at h4
        exact h4
      have hp : p = ((p.take (volumeNameLen p) ++ dw2.reverse) ++ [s]) ++ t.reverse := by
        conv_lhs => rw [← List.take_append_drop (volumeNameLen p) p]
        rw [hdrop]
        simp only [List.append_assoc]
      have hlen2 : (filepathSplit p).2.length = t.length := by
        rw [hsplit2, htw, List.length_reverse]
      rw [h1, hlen2]
      have hlr : t.length = t.reverse.length := (List.length_reverse t).symm
      rw [hlr]
      conv_lhs => rw [hp]
      exact take_sub_length _ _
    · rw [List.length_append, List.length_take]
      omega

theorem backDirSpec_false_of_no_dotdot (f : GoString) (h : containsDotDot f = false) :
    backDirSpec f = false := by
  have h1 : hasDotDotComponentW f = false := by
    cases hc : hasDotDotComponentW f with
    | false => rfl
    | true =>
      exfalso
      have h3 := dotdot_of_compsBy isPathSeparator f hc
      rw [h] at h3
      exact Bool.noConfusion h3
  have h2 : driveRelDotDot f = false := by
    cases hc : driveRelDotDot f with
    | false => rfl
    | true =>
      exfalso
      have h3 := driveRel_imp_dotdot f hc
      rw [h] at h3
      exact Bool.noConfusion h3
  simp [backDirSpec, h1, h2]

theorem hasDotDotW_sep_free (f : GoString) (hsf : ∀ c ∈ f, isPathSeparator c = false)
    (hne : f ≠ ['.', '.']) : hasDotDotComponentW f = false := by
  show (compsW f).contains ['.', '.'] = false
  have h1 : compsW f = [f] := compsBy_no_sep isPathSeparator f hsf
  rw [h1, contains_singleton, beq_eq_false_iff_ne]
  exact fun he => hne he.symm

theorem compsBy_cons_sep (P : Char → Bool) (c : Char) (cs : GoString) (h : P c = true) :
    compsBy P (c :: cs) = [] :: compsBy P cs := by
  simp only [compsBy]
  rw [if_pos h]

theorem backDirSpec_drive_sepfree (a : Char) (rest : GoString)
    (hsf : ∀ c ∈ rest, isPathSeparator c = false) (hne : rest ≠ ['.', '.']) :
    backDirSpec (a :: ':' :: rest) = false := by
  have h1 : hasDotDotComponentW (a :: ':' :: rest) = false := by
    show (compsBy isPathSeparator (a :: ':' :: rest)).contains ['.', '.'] = false
    by_cases ha : isPathSeparator a = true
    · have h2 : compsBy isPathSeparator (':' :: rest) = [':' :: rest] :=
        compsBy_no_sep _ _ (by
          intro c hc
          rcases List.mem_cons.mp hc with h | h
          · rw [h]; decide
          · exact hsf c h)
      have h3 : compsBy isPathSeparator (a :: ':' :: rest) = [] :: [':' :: rest] := by
        rw [compsBy_cons_sep _ _ _ ha, h2]
      rw [h3, List.contains_cons, List.contains_cons]
      have e1 : ((['.', '.'] : GoString) == ([] : GoString)) = false := rfl
      have e2 : ((['.', '.'] : GoString) == (':' :: rest)) = false := by
        rw [beq_cons]
        have h5 : (('.' == ':') : Bool) = false := by decide
        rw [h5]
        simp
      rw [e1, e2]
      simp
    · have haf : isPathSeparator a = false := by rwa [Bool.not_eq_true] at ha
      have h2 : compsBy isPathSeparator (a :: ':' :: rest) = [a :: ':' :: rest] :=
        compsBy_no_sep _ _ (by
          intro c hc
          rcases List.mem_cons.mp hc with h | h
          · rw [h]; exact haf
          · rcases List.mem_cons.mp h with h4 | h4
            · rw [h4]; decide
            · exact hsf c h4)
      rw [h2, contains_singleton, beq_cons]
      have e2 : ((['.'] : GoString) == (':' :: rest)) = false := by
        rw [beq_cons]
        have h5 : (('.' == ':') : Bool) = false := by decide
        rw [h5]
        simp
      rw [e2]
      simp
  have h2 : driveRelDotDot (a :: ':' :: rest) = false := by
    rcases rest with _ | ⟨r1, _ | ⟨r2, _ | ⟨r3, r4⟩⟩⟩
    · rfl
    · rfl
    · show ((':' : Char) == ':' && r1 == '.' && r2 == '.') = false
      by_cases h1' : r1 = '.'
      · by_cases h2' : r2 = '.'
        · exact absurd (by rw [h1', h2']) hne
        · have h6 : (r2 == '.') = false := beq_eq_false_iff_ne.mpr h2'
          rw [h6]
          simp
      · have h6 : (r1 == '.') = false := beq_eq_false_iff_ne.mpr h1'
        rw [h6]
        simp
    · show ((':' : Char) == ':' && r1 == '.' && r2 == '.' && isPathSeparator r3) = false
      have h5 : isPathSeparator r3 = false := hsf r3 (by simp)
      rw [h5]
      simp
  simp [backDirSpec, h1, h2]

theorem backdir_characterization_aux : ∀ (n : Nat) (f : GoString), f.length ≤ n →
    containsBackDir f = backDirSpec f := by
  intro n
  induction n with
  | zero =>
    intro f hf
    have hf0 : f = [] := List.length_eq_zero.mp (Nat.le_zero.mp hf)
    rw [hf0]
    decide
  | succ n ih =>
    intro f hf
    rw [containsBackDir_unfold]
    by_cases h0 : containsDotDot f = true
    · rw [if_neg (by rw [h0]; decide)]
      by_cases h1 : f = ['.', '.']
      · rw [if_pos h1, h1]
        decide
      · rw [if_neg h1]
        by_cases h2 : (filepathSplit f).2 = ['.', '.']
        · rw [if_pos h2]
          have happ := filepathSplit_append f
          rcases split_fst_struct f with hd | ⟨q, s, hds, hsep, hqlen⟩
          · cases hdl : driveLetter f with
            | false =>
              exfalso
              have hv0 : volumeNameLen f = 0 := volumeNameLen_eq_zero f hdl
              rw [hd, hv0] at happ
              simp at happ
              rw [h2] at happ
              exact h1 happ.symm
            | true =>
              have hv2 : volumeNameLen f = 2 := volumeNameLen_eq_two f hdl
              obtain ⟨a, r, har⟩ := driveLetter_shape f hdl
              have htake : f.take 2 = [a, ':'] := by rw [har]; rfl
              have hf4 : f = [a, ':', '.', '.'] := by
                conv_lhs => rw [← happ]
                rw [hd, hv2, htake, h2]
                rfl
              have hdr : driveRelDotDot f = true := by
                rw [hf4]
                show ((':' : Char) == ':' && '.' == '.' && '.' == '.') = true
                decide
              simp [backDirSpec, hdr]
          · have hfq : f = q ++ s :: ['.', '.'] := by
              conv_lhs => rw [← happ]
              rw [hds, h2]
              simp
            have hcw : compsW f = compsW q ++ [['.', '.']] := by
              rw [hfq]
              exact compsBy_append_sep isPathSeparator s ['.', '.'] hsep (by decide) q
            have hhd : hasDotDotComponentW f = true := by
              show (compsW f).contains ['.', '.'] = true
              rw [hcw, contains_append, contains_singleton]
              simp
            simp [backDirSpec, hhd]
        · rw [if_neg h2]
          have happ := filepathSplit_append f
          rcases split_fst_struct f with hd | ⟨q, s, hds, hsep, hqlen⟩
          · cases hdl : driveLetter f with
            | false =>
              have hv0 : volumeNameLen f = 0 := volumeNameLen_eq_zero f hdl
              have hd0 : (filepathSplit f).1 = [] := by rw [hd, hv0]; rfl
              have hsnd : (filepathSplit f).2 = f := by
                rw [hd0] at happ
                simpa using happ
              have hsf : ∀ c ∈ f, isPathSeparator c = false := by
                intro c hc
                apply filepathSplit_snd_sep_free f
                rw [hsnd]
                exact hc
              rw [hd0]
              have harg : trimTrailing (replaceBS []) ['/'] = [] := rfl
              rw [harg]
              have hcb : containsBackDir [] = false := by decide
              rw [hcb]
              have h1' : hasDotDotComponentW f = false := hasDotDotW_sep_free f hsf h1
              have h2' : driveRelDotDot f = false := driveRel_of_dl_false f hdl
              simp [backDirSpec, h1', h2']
            | true =>
              have hv2 : volumeNameLen f = 2 := volumeNameLen_eq_two f hdl
              obtain ⟨a, r, har⟩ := driveLetter_shape f hdl
              have htake : f.take 2 = [a, ':'] := by rw [har]; rfl
              have hdeq : (filepathSplit f).1 = [a, ':'] := by rw [hd, hv2, htake]
              have h6 : [a, ':'] ++ (filepathSplit f).2 = a :: ':' :: r := by
                rw [← hdeq, happ]
                exact har
              have hsnd : (filepathSplit f).2 = r := by simpa using h6
              have hsf : ∀ c ∈ r, isPathSeparator c = false := by
                intro c hc
                apply filepathSplit_snd_sep_free f
                rw [hsnd]
                exact hc
              have hrne : r ≠ ['.', '.'] := by
                intro he
                exact h2 (by rw [hsnd, he])
              rw [hdeq]
              have hend : endsIn [if a == '\\' then '/' else a, ':'] ['/'] = false := by
                show startsWith [':', if a == '\\' then '/' else a] ['/'] = false
                rw [startsWith_cons_single]
                decide
              have harg : trimTrailing (replaceBS [a, ':']) ['/']
                  = [if a == '\\' then '/' else a, ':'] := by
                show trimTrailing [if a == '\\' then '/' else a, ':'] ['/'] = _
                simp only [trimTrailing]
                rw [if_neg (by rw [hend]; simp)]
              rw [harg]
              have e1 : startsWith [if a == '\\' then '/' else a, ':'] ['.', '.'] = false := by
                show ((if a == '\\' then '/' else a) == '.' && startsWith [':'] ['.']) = false
                have e3 : startsWith [':'] ['.'] = false := by decide
                rw [e3]
                simp
              have hgate : containsDotDot [if a == '\\' then '/' else a, ':'] = false := by
                show (startsWith [if a == '\\' then '/' else a, ':'] ['.', '.']
                  || (startsWith [':'] ['.', '.'] || false)) = false
                have e2 : startsWith [':'] ['.', '.'] = false := by decide
                rw [e1, e2]
                rfl
              have hcb2 : containsBackDir [if a == '\\' then '/' else a, ':'] = false := by
                rw [containsBackDir_unfold, if_pos (by rw [hgate]; decide)]
              rw [hcb2, har]
              exact (backDirSpec_drive_sepfree a r hsf hrne).symm
          · have hfq : f = q ++ s :: (filepathSplit f).2 := by
              conv_lhs => rw [← happ]
              rw [hds]
              simp
            have hsndne : (['.', '.'] : GoString) ≠ (filepathSplit f).2 := fun he => h2 he.symm
            have hsndfree : ∀ c ∈ (filepathSplit f).2, isPathSeparator c = false :=
              filepathSplit_snd_sep_free f
            rw [hds]
            have harg : trimTrailing (replaceBS (q ++ [s])) ['/'] = replaceBS q := by
              rw [replaceBS_append]
              have hone : replaceBS [s] = ['/'] := by
                show [if s == '\\' then '/' else s] = ['/']
                rw [sep_replace_eq_slash s hsep]
              rw [hone, trimTrailing_append_single]
            rw [harg]
            have hlen : (replaceBS q).length ≤ n := by
              rw [length_replaceBS]
              have h5 := congrArg List.length hfq
              simp only [List.length_append, List.length_cons] at h5
              omega
            rw [ih (replaceBS q) hlen]
            have e1 : hasDotDotComponentW (replaceBS q) = hasDotDotComponentW q := by
              show (compsW (replaceBS q)).contains ['.', '.'] = (compsW q).contains ['.', '.']
              rw [compsW_replaceBS]
            have e2 : hasDotDotComponentW f = hasDotDotComponentW q := by
              show (compsW f).contains ['.', '.'] = (compsW q).contains ['.', '.']
              conv_lhs => rw [hfq]
              rw [show compsW (q ++ s :: (filepathSplit f).2)
                  = compsW q ++ [(filepathSplit f).2] from
                compsBy_append_sep isPathSeparator s _ hsep hsndfree q]
              rw [contains_append, contains_singleton, beq_eq_false_iff_ne.mpr hsndne]
              simp
            have e3 : driveRelDotDot f = driveRelDotDot q := by
              cases hdl : driveLetter f with
              | false =>
                have hqpre : driveLetter q = false :=
                  driveLetter_of_append f q (s :: (filepathSplit f).2) hfq hdl
                rw [driveRel_of_dl_false f hdl, driveRel_of_dl_false q hqpre]
              | true =>
                have hv2 : volumeNameLen f = 2 := volumeNameLen_eq_two f hdl
                rw [hv2] at hqlen
                conv_lhs => rw [hfq]
                exact driveRelDotDot_append_sep q s _ hsep hqlen
            have e4 : driveRelDotDot (replaceBS q) = driveRelDotDot q :=
              driveRelDotDot_replaceBS q
            show (hasDotDotComponentW (replaceBS q) || driveRelDotDot (replaceBS q))
              = (hasDotDotComponentW f || driveRelDotDot f)
            rw [e1, e2, e3, e4]
    · have h0f : containsDotDot f = false := by rwa [Bool.not_eq_true] at h0
      rw [if_pos (by rw [h0f]; decide)]
      exact (backDirSpec_false_of_no_dotdot f h0f).symm

theorem apply_cons (v : EnvVarMemento) (rest : List EnvVarMemento) (env : Env) :
    applyEnvVarDirectives (v :: rest) env =
      (⟨v.Name, (env v.Name).getD [], (env v.Name).isNone⟩ ::
        (applyEnvVarDirectives rest
          (if v.Unset then unsetenvFn env v.Name else setenvFn env v.Name v.Value)).1,
       (applyEnvVarDirectives rest
          (if v.Unset then unsetenvFn env v.Name else setenvFn env v.Name v.Value)).2) := rfl

theorem step_other (v : EnvVarMemento) (env : Env) (n : GoString) (h : n ≠ v.Name) :
    (if v.Unset then unsetenvFn env v.Name else setenvFn env v.Name v.Value) n = env n := by
  cases hu : v.Unset <;> simp [unsetenvFn, setenvFn, h]

theorem step_indep (v : EnvVarMemento) (env env' : Env) :
    (if v.Unset then unsetenvFn env v.Name else setenvFn env v.Name v.Value) v.Name
      = (if v.Unset then unsetenvFn env' v.Name else setenvFn env' v.Name v.Value) v.Name := by
  cases hu : v.Unset <;> simp [unsetenvFn, setenvFn]

theorem apply_env_other : ∀ (input : List EnvVarMemento) (env : Env) (n : GoString),
    n ∉ input.map EnvVarMemento.Name → (applyEnvVarDirectives input env).2 n = env n := by
  intro input
  induction input with
  | nil => intro env n _; rfl
  | cons v rest ih =>
    intro env n h
    rw [List.map_cons, List.mem_cons] at h
    push_neg at h
    calc (applyEnvVarDirectives (v :: rest) env).2 n
        = (applyEnvVarDirectives rest (if v.Unset then unsetenvFn env v.Name
            else setenvFn env v.Name v.Value)).2 n := rfl
      _ = (if v.Unset then unsetenvFn env v.Name else setenvFn env v.Name v.Value) n :=
          ih _ n h.2
      _ = env n := step_other v env n h.1

theorem apply_names : ∀ (input : List EnvVarMemento) (env : Env),
    (applyEnvVarDirectives input env).1.map EnvVarMemento.Name
      = input.map EnvVarMemento.Name := by
  intro input
  induction input with
  | nil => intro env; rfl
  | cons v rest ih =>
    intro env
    calc (applyEnvVarDirectives (v :: rest) env).1.map EnvVarMemento.Name
        = v.Name :: (applyEnvVarDirectives rest (if v.Unset then unsetenvFn env v.Name
            else setenvFn env v.Name v.Value)).1.map EnvVarMemento.Name := rfl
      _ = v.Name :: rest.map EnvVarMemento.Name := by rw [ih]
      _ = (v :: rest).map EnvVarMemento.Name := rfl

theorem restore_not_mem : ∀ (l : List EnvVarMemento) (env : Env) (n : GoString),
    n ∉ l.map EnvVarMemento.Name → RestoreEnvVars l env n = env n := by
  intro l
  induction l with
  | nil => intro env n _; rfl
  | cons v rest ih =>
    intro env n h
    rw [List.map_cons, List.mem_cons] at h
    push_neg at h
    calc RestoreEnvVars (v :: rest) env n
        = RestoreEnvVars rest (if v.Unset then unsetenvFn env v.Name
            else setenvFn env v.Name v.Value) n := rfl
      _ = (if v.Unset then unsetenvFn env v.Name else setenvFn env v.Name v.Value) n :=
          ih _ n h.2
      _ = env n := step_other v env n h.1

theorem restore_mem_indep : ∀ (l : List EnvVarMemento) (env env' : Env) (n : GoString),
    n ∈ l.map EnvVarMemento.Name → RestoreEnvVars l env n = RestoreEnvVars l env' n := by
  intro l
  induction l with
  | nil => intro env env' n h; simp at h
  | cons v rest ih =>
    intro env env' n h
    by_cases hm : n ∈ rest.map EnvVarMemento.Name
    · calc RestoreEnvVars (v :: rest) env n
          = RestoreEnvVars rest (if v.Unset then unsetenvFn env v.Name
              else setenvFn env v.Name v.Value) n := rfl
        _ = RestoreEnvVars rest (if v.Unset then unsetenvFn env' v.Name
              else setenvFn env' v.Name v.Value) n := ih _ _ n hm
        _ = RestoreEnvVars (v :: rest) env' n := rfl
    · have hn : n = v.Name := by
        rw [List.map_cons, List.mem_cons] at h
        tauto
      subst hn
      calc RestoreEnvVars (v :: rest) env v.Name
          = RestoreEnvVars rest (if v.Unset then unsetenvFn env v.Name
              else setenvFn env v.Name v.Value) v.Name := rfl
        _ = (if v.Unset then unsetenvFn env v.Name else setenvFn env v.Name v.Value) v.Name :=
            restore_not_mem rest _ v.Name hm
        _ = (if v.Unset then unsetenvFn env' v.Name
              else setenvFn env' v.Name v.Value) v.Name :=
            step_indep v env env'
        _ = RestoreEnvVars rest (if v.Unset then unsetenvFn env' v.Name
              else setenvFn env' v.Name v.Value) v.Name := (restore_not_mem rest _ v.Name hm).symm
        _ = RestoreEnvVars (v :: rest) env' v.Name := rfl

theorem restore_apply_cons (v : EnvVarMemento) (rest : List EnvVarMemento) (env : Env)
    (n : GoString) :
    RestoreEnvVars (applyEnvVarDirectives (v :: rest) env).1
        (applyEnvVarDirectives (v :: rest) env).2 n
      = RestoreEnvVars (applyEnvVarDirectives rest (if v.Unset then unsetenvFn env v.Name
          else setenvFn env v.Name v.Value)).1
        (if (env v.Name).isNone then
            unsetenvFn (applyEnvVarDirectives rest (if v.Unset then unsetenvFn env v.Name
              else setenvFn env v.Name v.Value)).2 v.Name
          else setenvFn (applyEnvVarDirectives rest (if v.Unset then unsetenvFn env v.Name
              else setenvFn env v.Name v.Value)).2 v.Name ((env v.Name).getD [])) n := rfl

theorem setup_restore_pointwise : ∀ (input : List EnvVarMemento) (env : Env),
    (input.map EnvVarMemento.Name).Nodup →
    ∀ n, RestoreEnvVars (applyEnvVarDirectives input env).1
      (applyEnvVarDirectives input env).2 n = env n := by
  intro input
  induction input with
  | nil => intro env _ n; rfl
  | cons v rest ih =>
    intro env hnd n
    rw [List.map_cons, List.nodup_cons] at hnd
    obtain ⟨hv, hnd2⟩ := hnd
    have hnames := apply_names rest
      (if v.Unset then unsetenvFn env v.Name else setenvFn env v.Name v.Value)
    rw [restore_apply_cons]
    by_cases h1 : n = v.Name
    · have hnm : v.Name ∉ (applyEnvVarDirectives rest (if v.Unset then unsetenvFn env v.Name
          else setenvFn env v.Name v.Value)).1.map EnvVarMemento.Name := by
        rw [hnames]
        exact hv
      rw [h1, restore_not_mem _ _ _ hnm]
      cases he : env v.Name with
      | none => simp [unsetenvFn]
      | some val => simp [setenvFn]
    · by_cases h2 : n ∈ rest.map EnvVarMemento.Name
      · have hm : n ∈ (applyEnvVarDirectives rest (if v.Unset then unsetenvFn env v.Name
            else setenvFn env v.Name v.Value)).1.map EnvVarMemento.Name := by
          rw [hnames]
          exact h2
        rw [restore_mem_indep _ _ ((applyEnvVarDirectives rest (if v.Unset
            then unsetenvFn env v.Name else setenvFn env v.Name v.Value)).2) n hm]
        rw [ih _ hnd2 n]
        exact step_other v env n h1
      · have hnm : n ∉ (applyEnvVarDirectives rest (if v.Unset then unsetenvFn env v.Name
            else setenvFn env v.Name v.Value)).1.map EnvVarMemento.Name := by
          rw [hnames]
          exact h2
        rw [restore_not_mem _ _ _ hnm]
        have hstep : (if (env v.Name).isNone then
            unsetenvFn (applyEnvVarDirectives rest (if v.Unset then unsetenvFn env v.Name
              else setenvFn env v.Name v.Value)).2 v.Name
          else setenvFn (applyEnvVarDirectives rest (if v.Unset then unsetenvFn env v.Name
              else setenvFn env v.Name v.Value)).2 v.Name ((env v.Name).getD [])) n
            = (applyEnvVarDirectives rest (if v.Unset then unsetenvFn env v.Name
              else setenvFn env v.Name v.Value)).2 n := by
          cases he : (env v.Name).isNone <;> simp [unsetenvFn, setenvFn, h1]
        rw [hstep, apply_env_other rest _ n h2, step_other v env n h1]

theorem checkLoop_of_nodup : ∀ (input : List EnvVarMemento) (seen : List GoString),
    (input.map EnvVarMemento.Name).Nodup →
    (∀ x ∈ input.map EnvVarMemento.Name, x ∉ seen) →
    checkEnvVarsLoop input seen = true := by
  intro input
  induction input with
  | nil => intro seen _ _; rfl
  | cons v rest ih =>
    intro seen hnd hdisj
    rw [List.map_cons, List.nodup_cons] at hnd
    simp only [checkEnvVarsLoop]
    have hvs : v.Name ∉ seen := hdisj v.Name (by simp)
    rw [if_neg (by rw [(contains_eq_false_iff seen v.Name).mpr hvs]; simp)]
    apply ih
    · exact hnd.2
    · intro x hx
      rw [List.mem_cons]
      push_neg
      refine ⟨?_, hdisj x (List.mem_cons_of_mem _ hx)⟩
      intro he
      exact hnd.1 (he ▸ hx)

theorem checkLoop_nodup : ∀ (input : List EnvVarMemento) (seen : List GoString),
    checkEnvVarsLoop input seen = true →
    (input.map EnvVarMemento.Name).Nodup ∧ ∀ x ∈ input.map EnvVarMemento.Name, x ∉ seen := by
  intro input
  induction input with
  | nil => intro seen _; exact ⟨by simp, by simp⟩
  | cons v rest ih =>
    intro seen h
    simp only [checkEnvVarsLoop] at h
    by_cases hc : seen.contains v.Name = true
    · rw [if_pos hc] at h
      exact Bool.noConfusion h
    · rw [if_neg hc] at h
      have hcf : seen.contains v.Name = false := by rwa [Bool.not_eq_true] at hc
      have hvs : v.Name ∉ seen := (contains_eq_false_iff seen v.Name).mp hcf
      obtain ⟨hnd, hdisj⟩ := ih (v.Name :: seen) h
      constructor
      · rw [List.map_cons, List.nodup_cons]
        refine ⟨?_, hnd⟩
        intro hm
        exact (hdisj v.Name hm) (List.mem_cons_self _ _)
      · intro x hx
        rw [List.map_cons, List.mem_cons] at hx
        rcases hx with he | hx2
        · rw [he]
          exact hvs
        · intro hxs
          exact (hdisj x hx2) (List.mem_cons_of_mem _ hxs)

theorem checkEnvVars_eq_true_iff (input : List EnvVarMemento) :
    checkEnvVars input = true ↔ (input.map EnvVarMemento.Name).Nodup := by
  unfold checkEnvVars
  by_cases he : input.isEmpty = true
  · rw [if_pos he]
    have hnil : input = [] := by
      cases input with
      | nil => rfl
      | cons a l => simp [List.isEmpty] at he
    rw [hnil]
    simp
  · rw [if_neg he]
    constructor
    · intro h
      exact (checkLoop_nodup input [] h).1
    · intro hnd
      exact checkLoop_of_nodup input [] hnd (by intro x _; simp)

theorem setup_dup_eq (input : List EnvVarMemento) (env : Env)
    (hdup : ¬ (input.map EnvVarMemento.Name).Nodup) :
    SetupEnvVars input env = (none, false, env) := by
  have hck : checkEnvVars input = false := by
    cases hc : checkEnvVars input with
    | false => rfl
    | true => exact absurd ((checkEnvVars_eq_true_iff input).mp hc) hdup
  unfold SetupEnvVars
  rw [if_neg (by rw [hck]; simp)]

theorem setup_nodup_eq (input : List EnvVarMemento) (env : Env)
    (hnd : (input.map EnvVarMemento.Name).Nodup) :
    SetupEnvVars input env = (some (applyEnvVarDirectives input env).1, true,
      (applyEnvVarDirectives input env).2) := by
  have hck : checkEnvVars input = true := (checkEnvVars_eq_true_iff input).mpr hnd
  unfold SetupEnvVars
  rw [if_pos hck]

/-! The claims. -/

/-- C1 (amended): `IsMalformedFileName p` holds exactly when `p` is nonempty
and either starts with a separator, or its canonical form carries a
drive-letter prefix, or the canonical form (with one trailing slash dropped
when the original contained a backslash) has a component that is exactly
`..` or an empty component after the first; a component merely containing
`..` as a substring never by itself makes the verdict true. -/
theorem isMalformedFileName_characterization (p : GoString) :
    IsMalformedFileName p = malformedSpec p :=
  malformed_characterization_aux p

/-- C1 counterexample: the claim as stated is false at the input `a/`: the
code reports it malformed although no slash component is `..`, it does not
start with a separator, and no drive prefix appears. -/
theorem isMalformedFileName_claim_counterexample :
    IsMalformedFileName "a/".toList = true ∧
      malformedSpecOriginal "a/".toList = false := by
  decide

/-- C2: for a batch with pairwise-distinct names, running `SetupEnvVars` and
then `RestoreEnvVars` on the snapshot it returned leaves every variable's
defined/undefined status and value as before. -/
theorem setup_restore_roundtrip (input : List EnvVarMemento) (env : Env)
    (hnd : (input.map EnvVarMemento.Name).Nodup) (n : GoString) :
    RestoreEnvVars ((SetupEnvVars input env).1.getD []) (SetupEnvVars input env).2.2 n
      = env n := by
  rw [setup_nodup_eq input env hnd]
  show RestoreEnvVars (applyEnvVarDirectives input env).1
    (applyEnvVarDirectives input env).2 n = env n
  exact setup_restore_pointwise input env hnd n

/-- C2 witness: the round trip at a concrete two-directive batch. -/
theorem setup_restore_roundtrip_witness :
    (([⟨"A".toList, "x".toList, false⟩, ⟨"B".toList, [], true⟩] : List EnvVarMemento).map
      EnvVarMemento.Name).Nodup ∧
    RestoreEnvVars ((SetupEnvVars [⟨"A".toList, "x".toList, false⟩, ⟨"B".toList, [], true⟩]
        (fun _ => none)).1.getD [])
      (SetupEnvVars [⟨"A".toList, "x".toList, false⟩, ⟨"B".toList, [], true⟩]
        (fun _ => none)).2.2 "A".toList
      = (fun _ => (none : Option GoString)) "A".toList :=
  ⟨by decide, setup_restore_roundtrip _ _ (by decide) _⟩

/-- C3: a batch with a repeated name makes `SetupEnvVars` return a nil
snapshot and false, the environment untouched. -/
theorem setup_dup_rejects (input : List EnvVarMemento) (env : Env)
    (hdup : ¬ (input.map EnvVarMemento.Name).Nodup) :
    SetupEnvVars input env = (none, false, env) :=
  setup_dup_eq input env hdup

/-- C3 witness: a concrete batch repeating the name A. -/
theorem setup_dup_rejects_witness :
    (¬ (([⟨"A".toList, [], false⟩, ⟨"A".toList, "y".toList, true⟩] : List EnvVarMemento).map
      EnvVarMemento.Name).Nodup) ∧
    SetupEnvVars [⟨"A".toList, [], false⟩, ⟨"A".toList, "y".toList, true⟩]
        (fun _ => none) = (none, false, fun _ => none) :=
  ⟨by decide, setup_dup_rejects _ _ (by decide)⟩

/-- C4: a directed command whose environment batch repeats a name returns
false without invoking the executor; with a duplicate-free batch the
executor runs exactly once and the environment is afterwards restored
pointwise, also when the executor fails. -/
theorem execute_env_spec (dC : directedCommand) (execFn : Executor) (env : Env) :
    (¬ (dC.envVars.map EnvVarMemento.Name).Nodup →
      dC.execute execFn env = (false, env, 0)) ∧
    ((dC.envVars.map EnvVarMemento.Name).Nodup →
      (dC.execute execFn env).2.2 = 1 ∧
        ∀ n, (dC.execute execFn env).2.1 n = env n) := by
  constructor
  · intro hdup
    unfold directedCommand.execute
    rw [setup_dup_eq dC.envVars env hdup]
    rfl
  · intro hnd
    constructor
    · unfold directedCommand.execute
      rw [setup_nodup_eq dC.envVars env hnd]
      rfl
    · intro n
      unfold directedCommand.execute
      rw [setup_nodup_eq dC.envVars env hnd]
      show RestoreEnvVars (applyEnvVarDirectives dC.envVars env).1
        (applyEnvVarDirectives dC.envVars env).2 n = env n
      exact setup_restore_pointwise dC.envVars env hnd n

/-- C4 witness: a duplicate batch never runs the failing executor; a valid
batch runs it once and restores the variable A. -/
theorem execute_env_spec_witness :
    ((directedCommand.mk "go".toList "wd".toList
        [⟨"A".toList, [], false⟩, ⟨"A".toList, [], true⟩]).execute
        (fun _ _ _ => false) (fun _ => none)
      = (false, (fun _ => none : Env), 0)) ∧
    ((directedCommand.mk "go".toList "wd".toList
        [⟨"A".toList, "x".toList, false⟩]).execute
        (fun _ _ _ => false) (fun _ => none)).2.2 = 1 ∧
    ((directedCommand.mk "go".toList "wd".toList
        [⟨"A".toList, "x".toList, false⟩]).execute
        (fun _ _ _ => false) (fun _ => none)).2.1 "A".toList
      = (fun _ => (none : Option GoString)) "A".toList :=
  ⟨(execute_env_spec _ _ _).1 (by decide),
   ((execute_env_spec _ _ _).2 (by decide)).1,
   ((execute_env_spec _ _ _).2 (by decide)).2 "A".toList⟩

/-- C5: the six example verdicts of `IsMalformedFileName` from the spec. -/
theorem isMalformedFileName_examples :
    IsMalformedFileName "".toList = false ∧
    IsMalformedFileName "..".toList = true ∧
    IsMalformedFileName "../".toList = true ∧
    IsMalformedFileName "..\\".toList = true ∧
    IsMalformedFileName "a/b/c/../e/f/g".toList = true ∧
    IsMalformedFileName "a/b..c/d/e/f".toList = false := by
  decide

/-- C6 (amended): for every path that does not begin with two separators —
on double-separator-leading (UNC or device style) paths the real volume
parser consumes the whole string and `containsBackDir` recurses without
progress — `containsBackDir f` holds exactly when some component of `f`
delimited by either separator is exactly `..`, or a drive-style prefix
(second character `:`) is immediately followed by a complete `..`
component; mere `..` substrings inside larger components never trigger it.
The hypothesis is preserved by the code's recursion: the directory part is
a prefix of the input, separator replacement keeps separators separators,
and the suffix trim only shortens the tail, so every split the code
performs on such inputs stays in the domain where the drive-letter-only
volume model is exact. -/
theorem containsBackDir_characterization (f : GoString)
    (_h : leadingDoubleSep f = false) :
    containsBackDir f = backDirSpec f :=
  backdir_characterization_aux f.length f (Nat.le_refl _)

/-- C6 witness: a path mixing both separators with one real `..` component
and one benign `b..c` component. -/
theorem containsBackDir_characterization_witness :
    leadingDoubleSep "a\\../b..c".toList = false ∧
    containsBackDir "a\\../b..c".toList = backDirSpec "a\\../b..c".toList :=
  ⟨by decide, containsBackDir_characterization _ (by decide)⟩

/-- C6 counterexample: the claim as stated is false at the input `c:..`:
the code reports true although no separator-delimited component is `..`. -/
theorem containsBackDir_claim_counterexample :
    containsBackDir "c:..".toList = true ∧
      hasDotDotComponentW "c:..".toList = false := by
  decide

/-- C7: on the concrete tree, `AllDirs "a"` lists exactly the four
directories in pre-order with lexicographic siblings, the file excluded;
and on any path that is not a directory `AllDirs` returns an error. -/
theorem allDirs_spec :
    (AllDirs fsC7 "a".toList
      = Except.ok ["a".toList, "a/b".toList, "a/b/c".toList, "a/b/c/d".toList]) ∧
    ∀ (fs : FSNode) (top : GoString), isDirNode (resolve fs top) = false →
      ∃ e, AllDirs fs top = Except.error e := by
  constructor
  · rfl
  · intro fs top h
    unfold AllDirs
    cases hres : resolve fs top with
    | none => exact ⟨_, rfl⟩
    | some node =>
      cases node with
      | file => exact ⟨_, rfl⟩
      | dir cs =>
        rw [hres] at h
        have h2 : true = false := h
        exact Bool.noConfusion h2

/-- C7 witness: a bare file is not a directory, and `AllDirs` errors on it. -/
theorem allDirs_spec_witness :
    isDirNode (resolve FSNode.file "x".toList) = false ∧
    ∃ e, AllDirs FSNode.file "x".toList = Except.error e :=
  ⟨rfl, allDirs_spec.2 FSNode.file "x".toList rfl⟩

/-- C8: on the tree with files a/foo_test.go and a/b/foo.go, `RelevantDirs`
rooted at a with the Go-source matcher returns exactly the relative list
containing b alone. -/
theorem relevantDirs_goSource_example :
    RelevantDirs fsC8 "a".toList MatchGoSource = Except.ok ["b".toList] := rfl

/-- C9 (amended): for a working root written without backslashes, whenever
the root directory itself directly contains a relevant file the list
produced by `RelevantDirs` includes the root, represented as the empty
string.  The backslash condition is essential: a root written with
backslashes is walked as its slash-canonicalized path, the prefix trim
against the original spelling then fails to strip, and the root is listed
as that canonicalized path rather than as the empty string. -/
theorem relevantDirs_root_included (fs : FSNode) (top : GoString)
    (fileMatcher : GoString → Bool) (l : List GoString)
    (hbs : '\\' ∉ top)
    (hinc : IncludesRelevantFiles fs top fileMatcher = true)
    (hok : RelevantDirs fs top fileMatcher = Except.ok l) :
    [] ∈ l := by
  unfold RelevantDirs at hok
  cases hall : AllDirs fs top with
  | error e =>
    rw [hall] at hok
    exact Except.noConfusion hok
  | ok dirs =>
    rw [hall] at hok
    have hok2 : Except.ok ((dirs.filter
        (fun dir => IncludesRelevantFiles fs dir fileMatcher)).map
        (fun dir => trimLeading (trimLeading dir top) ['/'])) = Except.ok l := hok
    have hl := Except.ok.inj hok2
    have htop : top ∈ dirs := by
      unfold AllDirs at hall
      cases hres : resolve fs top with
      | none =>
        rw [hres] at hall
        exact Except.noConfusion hall
      | some node =>
        cases node with
        | file =>
          rw [hres] at hall
          exact Except.noConfusion hall
        | dir cs =>
          rw [hres] at hall
          have hall2 : Except.ok (allDirsFuel (sizeChildren cs + 1) (canonicalPath top) cs)
              = Except.ok dirs := hall
          have hdirs := Except.ok.inj hall2
          rw [← hdirs]
          simp only [allDirsFuel]
          rw [canonicalPath_eq_self top hbs]
          exact List.mem_cons_self _ _
    rw [← hl]
    apply List.mem_map.mpr
    refine ⟨top, ?_, ?_⟩
    · rw [List.mem_filter]
      exact ⟨htop, hinc⟩
    · have h1 : trimLeading top top = [] := by
        unfold trimLeading
        rw [if_pos (startsWith_refl top)]
        exact List.drop_length top
      rw [h1]
      rfl

/-- C9 counterexample: rooted at a over the tree with files a/foo_test.go
and a/b/foo.go, the produced list is exactly b and does not contain the
empty string, so the root is not always included. -/
theorem relevantDirs_root_counterexample :
    RelevantDirs fsC8 "a".toList MatchGoSource = Except.ok ["b".toList] ∧
    ([] : GoString) ∉ (["b".toList] : List GoString) := by
  exact ⟨rfl, by decide⟩

/-- C9 witness: on a tree whose root directly holds a Go source file, the
root appears in the list as the empty string. -/
theorem relevantDirs_root_witness :
    ('\\' ∉ "a".toList) ∧
    IncludesRelevantFiles fsC9w "a".toList MatchGoSource = true ∧
    RelevantDirs fsC9w "a".toList MatchGoSource = Except.ok ([[]] : List GoString) ∧
    ([] : GoString) ∈ ([[]] : List GoString) :=
  ⟨by decide, by decide, rfl,
   relevantDirs_root_included fsC9w "a".toList MatchGoSource [[]] (by decide) (by decide) rfl⟩

/-- C10: an empty or malformed coverage file name makes
`GenerateCoverageReport` return false with the environment untouched and
zero executor invocations, so neither command is run. -/
theorem generateCoverageReport_illegal (execFn : Executor) (wd : GoString) (env : Env)
    (f : GoString) (h : isIllegalFileName f = true) :
    GenerateCoverageReport execFn wd env f = (false, env, 0) := by
  unfold GenerateCoverageReport
  rw [if_pos h]

/-- C10 witness: at the malformed name `..` with an always-succeeding
executor nothing runs. -/
theorem generateCoverageReport_illegal_witness :
    isIllegalFileName "..".toList = true ∧
    GenerateCoverageReport (fun _ _ _ => true) "wd".toList (fun _ => none) "..".toList
      = (false, (fun _ => none : Env), 0) :=
  ⟨by decide, generateCoverageReport_illegal _ _ _ _ (by decide)⟩
